import Mathlib

/-!
# Verification of the modconfigobj lexer

Shallow embedding of the streaming configuration-file lexer
(package `modconfigobj`, file `lexer.go` of the library package; the claims
all refer to that copy of the lexer, whose exported API is `NewLexer` /
`NextItem`).

Modelling conventions:
* The rune source (`Reader`) is a list of characters together with a cursor,
  represented as a zipper (`left` = runes already read, most recent first,
  `right` = runes not yet read).  `ReadRune` returns the next rune and its
  UTF-8 byte width; at end of input it returns the error `io.EOF`, modelled
  as `none`.  `UnreadRune` moves the most recently read rune back.
* Byte offsets (`Position`, `start`, token `len`) are Go `int64` values,
  modelled as `Int` (no input remotely approaches `2^63` bytes, so wraparound
  is immaterial and not modelled).
* The token buffer (`bytes.Buffer`) is a list of bytes; `WriteRune` appends
  the UTF-8 encoding of the rune, `Truncate n` keeps the first `n` bytes.
* Go panics (failed `UnreadRune`, `backup` without a preceding `next`,
  `bytes.Buffer.Truncate` out of range, calling a nil state function) are
  modelled as `none` / `.fault` results.
* Go loops are modelled by structural recursion on a fuel argument that the
  (non-recursive) wrapper instantiates with more fuel than the loop can
  consume (each loop iteration reads at least one rune, except final
  iterations); running out of fuel yields `none` and is proved unreachable.
* The token channel (capacity 3) plus the `NextItem` select loop deliver
  tokens in emission order; the emitted-but-undelivered tokens are the list
  `out`, used as a FIFO queue.
-/

namespace Modconfigobj

/-- The `itemType` enumeration from the source. -/
inductive ItemType where
  | ItemError
  | itemComment
  | ItemKeyword
  | ItemValue
  | ItemSection
  | ItemEOF
deriving DecidableEq, Repr

/-- The `token` struct: kind, starting byte offset, byte length, literal text
(Go strings are byte sequences, so the value is a list of bytes). -/
structure Token where
  tokenType : ItemType
  position : Int
  len : Int
  value : List UInt8
deriving DecidableEq, Repr

/-- Model of Go `unicode.IsSpace`: the Unicode White_Space property
(`\t \n \v \f \r ' '`, U+0085, U+00A0, U+1680, U+2000–U+200A, U+2028,
U+2029, U+202F, U+205F, U+3000). -/
def goIsSpace (c : Char) : Bool :=
  c == '\t' || c == '\n' || c == '\u000B' || c == '\u000C' || c == '\r' ||
  c == ' ' || c == '\u0085' || c == '\u00A0' || c == '\u1680' ||
  ('\u2000' ≤ c && c ≤ '\u200A') ||
  c == '\u2028' || c == '\u2029' || c == '\u202F' || c == '\u205F' ||
  c == '\u3000'

/-- UTF-8 byte length of a rune sequence. -/
def byteLen : List Char → Nat
  | [] => 0
  | c :: cs => c.utf8Size + byteLen cs

/-- The byte sequence of a rune sequence (the raw source text in bytes). -/
def srcBytes : List Char → List UInt8
  | [] => []
  | c :: cs => String.utf8EncodeChar c ++ srcBytes cs

/-- The `Lexer` struct.  `left`/`right` are the reader cursor, `buf` is
`tokenValBuffer`, `out` is the emitted-but-undelivered token queue
(`tokenStream`). -/
structure LexState where
  left : List Char
  right : List Char
  buf : List UInt8
  prevRuneSize : Nat
  pos : Int
  start : Int
  out : List Token
deriving DecidableEq, Repr

/-- The whole rune source this state is scanning (a cursor invariant). -/
def LexState.src (s : LexState) : List Char := s.left.reverse ++ s.right

/-- Remaining input length, used as the fuel measure for the Go loops. -/
def LexState.rem (s : LexState) : Nat := s.right.length

/-- `Reader.ReadRune`: next rune and its byte width, or `io.EOF`. -/
def readRune (s : LexState) : Option (Char × Nat) × LexState :=
  match s.right with
  | [] => (none, s)
  | c :: rest =>
      (some (c, c.utf8Size),
        { s with left := c :: s.left, right := rest })

/-- `(*Lexer).consumeRune`: advance `Position` by the byte width and write the
rune into the token buffer. -/
def consumeRune (s : LexState) (r : Char) (n : Nat) : LexState :=
  { s with pos := s.pos + n, buf := s.buf ++ String.utf8EncodeChar r }

/-- `(*Lexer).next`.  On `io.EOF` the Go code still calls
`consumeRune(0, 0)`, writing rune U+0000 (one NUL byte) into the token
buffer without advancing `Position`, and records `prevRuneSize = 0`. -/
def next (s : LexState) : Option Char × LexState :=
  match readRune s with
  | (none, s1) =>
      (none, { consumeRune s1 (Char.ofNat 0) 0 with prevRuneSize := 0 })
  | (some (c, n), s1) =>
      (some c, { consumeRune s1 c n with prevRuneSize := n })

/-- `(*Lexer).resetTokenBuffer`. -/
def resetTokenBuffer (s : LexState) : LexState :=
  { s with start := s.pos, buf := [] }

/-- `(*Lexer).emit`: append a token carrying `start`, `Position - start` and
the buffer contents, then reset the buffer. -/
def emit (s : LexState) (t : ItemType) : LexState :=
  resetTokenBuffer
    { s with out := s.out ++
        [{ tokenType := t, position := s.start, len := s.pos - s.start,
           value := s.buf }] }

/-- `(*Lexer).backup`.  `none` is a Go panic: `prevRuneSize == 0`
("backup called before a call to next"), a failed `UnreadRune`, or an
out-of-range `bytes.Buffer.Truncate`. -/
def backup (s : LexState) : Option LexState :=
  if s.prevRuneSize = 0 then none
  else if s.buf.length < s.prevRuneSize then none
  else
    match s.left with
    | [] => none
    | c :: l =>
        some { s with left := l, right := c :: s.right,
                      buf := s.buf.take (s.buf.length - s.prevRuneSize),
                      pos := s.pos - (s.prevRuneSize : Int),
                      prevRuneSize := 0 }

/-- `(*Lexer).takeRunes`: read up to `max` copies of `accept`; stop early on
a mismatch (pushing the rune back) or on `io.EOF` (the `Bool` result). -/
def takeRunes (accept : Char) : Nat → LexState → Option (Nat × Bool × LexState)
  | 0, s => some (0, false, s)
  | m + 1, s =>
      match next s with
      | (none, s1) => some (0, true, s1)
      | (some r, s1) =>
          if r = accept then
            match takeRunes accept m s1 with
            | none => none
            | some (k, e, s2) => some (k + 1, e, s2)
          else
            match backup s1 with
            | none => none
            | some s2 => some (0, false, s2)

/-- Loop body of `(*Lexer).acceptRun` (fuel-indexed). -/
def acceptRunF (accept : Char) : Nat → LexState → Option (Nat × Bool × LexState)
  | 0, _ => none
  | fuel + 1, s =>
      match next s with
      | (none, s1) => some (0, true, s1)
      | (some r, s1) =>
          if r = accept then
            match acceptRunF accept fuel s1 with
            | none => none
            | some (k, e, s2) => some (k + 1, e, s2)
          else
            match backup s1 with
            | none => none
            | some s2 => some (0, false, s2)

/-- `(*Lexer).acceptRun`: read a maximal run of `accept` runes. -/
def acceptRun (accept : Char) (s : LexState) : Option (Nat × Bool × LexState) :=
  acceptRunF accept (s.rem + 1) s

/-- Loop body of `(*Lexer).skipWhitespace` (fuel-indexed). -/
def skipWhitespaceF : Nat → LexState → Option LexState
  | 0, _ => none
  | fuel + 1, s =>
      match next s with
      | (none, s1) => some s1
      | (some r, s1) =>
          if goIsSpace r then skipWhitespaceF fuel s1
          else
            match backup s1 with
            | none => none
            | some s2 => some (resetTokenBuffer s2)

/-- `(*Lexer).skipWhitespace`. -/
def skipWhitespace (s : LexState) : Option LexState :=
  skipWhitespaceF (s.rem + 1) s

/-- The state functions (`stateFn` values stored in `l.state`).  The quoted
value lexer is called directly by `lexValue`, not stored as a state. -/
inductive StateF where
  | generic
  | key
  | value
  | comment
  | sec
deriving DecidableEq, Repr

/-- `lexGeneric`.  Its `for` loop returns in every branch, so it runs one
iteration. -/
def lexGeneric (s : LexState) : Option (LexState × Option StateF) :=
  match skipWhitespace s with
  | none => none
  | some s0 =>
    let s1 := resetTokenBuffer s0
    match next s1 with
    | (none, s2) =>
        let s3 := resetTokenBuffer s2
        some (emit s3 .ItemEOF, none)
    | (some r, s2) =>
        if r = '[' then
          match backup s2 with
          | none => none
          | some s3 => some (s3, some .sec)
        else if r = '#' then
          match backup s2 with
          | none => none
          | some s3 => some (s3, some .comment)
        else if r = '\n' then some (s2, some .generic)
        else if r = '=' then some (emit s2 .ItemError, some .generic)
        else
          match backup s2 with
          | none => none
          | some s3 => some (s3, some .key)

/-- Loop body of `lexKey` (fuel-indexed). -/
def lexKeyF : Nat → LexState → Option (LexState × Option StateF)
  | 0, _ => none
  | fuel + 1, s =>
      match next s with
      | (none, s1) =>
          let s2 := emit s1 .ItemError
          some (emit s2 .ItemEOF, none)
      | (some r, s1) =>
          if r = '\n' then some (emit s1 .ItemError, some .generic)
          else if r = '=' then
            if s1.pos - (s1.prevRuneSize : Int) = s1.start then
              some (emit s1 .ItemError, some .generic)
            else
              match backup s1 with
              | none => none
              | some s2 =>
                  let s3 := emit s2 .ItemKeyword
                  let s4 := (next s3).2
                  some (s4, some .value)
          else lexKeyF fuel s1

/-- `lexKey`. -/
def lexKey (s : LexState) : Option (LexState × Option StateF) :=
  lexKeyF (s.rem + 1) (resetTokenBuffer s)

/-- Loop body of `lexQuotedValue` (the `case 1, 3` loop, fuel-indexed).
Note the source tests `if err != io.EOF` after reading a body rune, so a
successful read (err = nil) emits Error and EndOfStream and halts. -/
def lexQuotedBodyF (quoteRune : Char) (numQuotes : Nat) :
    Nat → LexState → Option (LexState × Option StateF)
  | 0, _ => none
  | fuel + 1, s =>
      match takeRunes quoteRune numQuotes s with
      | none => none
      | some (endQuotes, eofErr, s1) =>
          if eofErr then
            let s2 := emit s1 .ItemError
            some (emit s2 .ItemEOF, none)
          else if endQuotes = numQuotes then
            some (emit s1 .ItemValue, some .generic)
          else
            match next s1 with
            | (some _, s2) =>
                let s3 := emit s2 .ItemError
                some (emit s3 .ItemEOF, none)
            | (none, s2) => lexQuotedBodyF quoteRune numQuotes fuel s2

/-- `lexQuotedValue`. -/
def lexQuotedValue (quoteRune : Char) (s : LexState) :
    Option (LexState × Option StateF) :=
  let s0 := resetTokenBuffer s
  match takeRunes quoteRune 3 s0 with
  | none => none
  | some (numQuotes, eofErr, s1) =>
      if eofErr then
        let s2 := emit s1 .ItemError
        some (emit s2 .ItemEOF, none)
      else if numQuotes = 1 ∨ numQuotes = 3 then
        lexQuotedBodyF quoteRune numQuotes (s1.rem + 2) s1
      else
        some (emit s1 .ItemError, some .generic)

/-- Loop body of `lexValue` (fuel-indexed). -/
def lexValueF : Nat → LexState → Option (LexState × Option StateF)
  | 0, _ => none
  | fuel + 1, s =>
      match next s with
      | (none, s1) =>
          let s2 := emit s1 .ItemValue
          some (emit s2 .ItemEOF, none)
      | (some r, s1) =>
          if r = '"' ∨ r = '\'' then
            if s1.pos - (s1.prevRuneSize : Int) = s1.start then
              match backup s1 with
              | none => none
              | some s2 => lexQuotedValue r s2
            else lexValueF fuel s1
          else if r = '\n' then
            match backup s1 with
            | none => none
            | some s2 =>
                let s3 := emit s2 .ItemValue
                let s4 := (next s3).2
                some (s4, some .generic)
          else lexValueF fuel s1

/-- `lexValue`. -/
def lexValue (s : LexState) : Option (LexState × Option StateF) :=
  match skipWhitespace s with
  | none => none
  | some s0 => lexValueF (s0.rem + 1) (resetTokenBuffer s0)

/-- Loop body of `lexComment` (fuel-indexed).  The source reads with
`l.input.ReadRune()` directly (not `l.next`), so `prevRuneSize` is not
updated and nothing is written to the buffer at `io.EOF`. -/
def lexCommentF : Nat → LexState → Option (LexState × Option StateF)
  | 0, _ => none
  | fuel + 1, s =>
      match readRune s with
      | (none, s1) =>
          let s2 := if s1.pos ≠ s1.start then emit s1 .itemComment else s1
          some (emit s2 .ItemEOF, none)
      | (some (r, n), s1) =>
          if r = '\n' then
            let s2 := if s1.pos ≠ s1.start then emit s1 .itemComment else s1
            some ({ s2 with pos := s2.pos + (n : Int) }, some .generic)
          else lexCommentF fuel (consumeRune s1 r n)

/-- `lexComment`.  Sets `start` without resetting the buffer. -/
def lexComment (s : LexState) : Option (LexState × Option StateF) :=
  lexCommentF (s.rem + 1) { s with start := s.pos }

/-- Loop body of `lexSection` (fuel-indexed). -/
def lexSectionF (sectionDepth : Nat) :
    Nat → LexState → Option (LexState × Option StateF)
  | 0, _ => none
  | fuel + 1, s =>
      match takeRunes ']' sectionDepth s with
      | none => none
      | some (endSectionRun, eofErr, s1) =>
          if eofErr then
            let s2 := emit s1 .ItemError
            some (emit s2 .ItemEOF, none)
          else if endSectionRun = sectionDepth then
            some (emit s1 .ItemSection, some .generic)
          else
            match next s1 with
            | (none, s2) =>
                let s3 := emit s2 .ItemError
                some (emit s3 .ItemEOF, none)
            | (some r, s2) =>
                if r = '\n' then some (emit s2 .ItemError, some .generic)
                else lexSectionF sectionDepth fuel s2

/-- `lexSection`. -/
def lexSection (s : LexState) : Option (LexState × Option StateF) :=
  let s0 := resetTokenBuffer s
  match acceptRun '[' s0 with
  | none => none
  | some (sectionDepth, eofErr, s1) =>
      if sectionDepth = 0 ∨ eofErr then
        some (emit s1 .ItemError, some .generic)
      else lexSectionF sectionDepth (s1.rem + 1) s1

/-- Dispatch a stored state function. -/
def runState : StateF → LexState → Option (LexState × Option StateF)
  | .generic, s => lexGeneric s
  | .key, s => lexKey s
  | .value, s => lexValue s
  | .comment, s => lexComment s
  | .sec, s => lexSection s

/-- The lexer state right after `NewLexer`. -/
def initState (input : List Char) : LexState :=
  { left := [], right := input, buf := [], prevRuneSize := 0,
    pos := 0, start := 0, out := [] }

/-- Drive the state machine to completion (state functions return `nil`),
accumulating every emitted token in `out`.  `none` = a panic or not enough
fuel. -/
def runAll : Nat → StateF → LexState → Option LexState
  | 0, _, _ => none
  | fuel + 1, tag, s =>
      match runState tag s with
      | none => none
      | some (s1, none) => some s1
      | some (s1, some tag1) => runAll fuel tag1 s1

/-- Fuel that always suffices to run a whole input to completion. -/
def lexFuel (input : List Char) : Nat := 2 * input.length + 2

/-- The full token stream the lexer emits for an input (emission order =
delivery order, because the token channel is FIFO). -/
def lexTokens (input : List Char) : Option (List Token) :=
  (runAll (lexFuel input) .generic (initState input)).map LexState.out

/-- The `Lexer` object handed to consumers: machine state plus the stored
`state` function (`none` models a nil `stateFn`). -/
structure Lexer where
  st : LexState
  state : Option StateF
deriving DecidableEq, Repr

/-- `NewLexer`. -/
def NewLexer (input : List Char) : Lexer :=
  { st := initState input, state := some .generic }

/-- Result of one `NextItem` call.  `.fault` is a Go panic (calling a nil
state function, or a panic inside a state function). -/
inductive NextItemResult where
  | item (t : Token) (l : Lexer)
  | fault
  | outOfFuel
deriving DecidableEq, Repr

/-- `(*Lexer).NextItem`: deliver a queued token if one is pending, otherwise
run state functions until one is.  After the machine has halted
(`l.state = nil`) with an empty queue, the Go code calls the nil function
and panics. -/
def nextItemF : Nat → Lexer → NextItemResult
  | fuel, lx =>
      match lx.st.out with
      | t :: rest => .item t ⟨{ lx.st with out := rest }, lx.state⟩
      | [] =>
          match fuel with
          | 0 => .outOfFuel
          | fuel + 1 =>
              match lx.state with
              | none => .fault
              | some tag =>
                  match runState tag lx.st with
                  | none => .fault
                  | some (s1, n1) => nextItemF fuel ⟨s1, n1⟩

/-- Byte slice `[a, a+len)` of a byte sequence. -/
def sliceBytes (bs : List UInt8) (a len : Int) : List UInt8 :=
  (bs.drop a.toNat).take len.toNat

/-- The spec's text property for one token: its text is exactly the source
substring `[position, position + len)` (in bytes). -/
def tokenTextOk (input : List Char) (t : Token) : Prop :=
  t.value = sliceBytes (srcBytes input) t.position t.len

/-- The spec's position property: `position` values are non-decreasing
across the stream. -/
def positionsMonotone (ts : List Token) : Prop :=
  List.Chain' (fun a b => a.position ≤ b.position) ts

/-- Amended text property: the text is the source substring, except that a
token emitted after the lexer has read end-of-input carries one extra
trailing NUL byte (see `next`). -/
def tokenTextOkNul (input : List Char) (t : Token) : Prop :=
  t.value = sliceBytes (srcBytes input) t.position t.len ∨
  t.value = sliceBytes (srcBytes input) t.position t.len ++ [0]

/-! ## Basic facts about bytes and slices -/

theorem length_srcBytes (cs : List Char) : (srcBytes cs).length = byteLen cs := by
  induction cs with
  | nil => rfl
  | cons c cs ih => simp [srcBytes, byteLen, ih, String.length_utf8EncodeChar]

theorem srcBytes_append (a b : List Char) :
    srcBytes (a ++ b) = srcBytes a ++ srcBytes b := by
  induction a with
  | nil => rfl
  | cons c a ih => simp [srcBytes, ih]

theorem byteLen_append (a b : List Char) :
    byteLen (a ++ b) = byteLen a + byteLen b := by
  induction a with
  | nil => simp [byteLen]
  | cons c a ih => simp [byteLen, ih]; omega

theorem byteLen_reverse (a : List Char) : byteLen a.reverse = byteLen a := by
  induction a with
  | nil => rfl
  | cons c a ih =>
      rw [List.reverse_cons, byteLen_append, byteLen, byteLen, byteLen, ih]
      omega

theorem byteLen_eq_zero {cs : List Char} (h : byteLen cs = 0) : cs = [] := by
  cases cs with
  | nil => rfl
  | cons c cs =>
      have := Char.utf8Size_pos c
      simp [byteLen] at h
      omega

theorem slice_src (l0 mid r : List Char) :
    sliceBytes (srcBytes (l0.reverse ++ (mid ++ r))) (byteLen l0) (byteLen mid) =
      srcBytes mid := by
  have h1 : ((byteLen l0 : Int)).toNat = (srcBytes l0.reverse).length := by
    rw [length_srcBytes, byteLen_reverse]; simp
  have h2 : ((byteLen mid : Int)).toNat = (srcBytes mid).length := by
    rw [length_srcBytes]; simp
  simp only [sliceBytes, srcBytes_append, h1, List.drop_left, h2, List.take_left]

/-! ## Characterizations of the primitive cursor operations -/

theorem resetTokenBuffer_eq (s : LexState) :
    resetTokenBuffer s = ⟨s.left, s.right, [], s.prevRuneSize, s.pos, s.pos, s.out⟩ := rfl

theorem emit_eq (s : LexState) (ty : ItemType) :
    emit s ty = ⟨s.left, s.right, [], s.prevRuneSize, s.pos, s.pos,
      s.out ++ [⟨ty, s.start, s.pos - s.start, s.buf⟩]⟩ := rfl

theorem next_nil {s : LexState} (h : s.right = []) :
    next s = (none, ⟨s.left, s.right, s.buf ++ [0], 0, s.pos, s.start, s.out⟩) := by
  have henc : String.utf8EncodeChar (Char.ofNat 0) = [0] := by decide
  simp [next, readRune, h, consumeRune, henc]

theorem next_cons {s : LexState} {c : Char} {rest : List Char} (h : s.right = c :: rest) :
    next s = (some c, ⟨c :: s.left, rest, s.buf ++ String.utf8EncodeChar c,
      c.utf8Size, s.pos + (c.utf8Size : Int), s.start, s.out⟩) := by
  simp [next, readRune, h, consumeRune]

theorem backup_next {s : LexState} {c : Char} {s1 : LexState}
    (h : next s = (some c, s1)) : backup s1 = some { s with prevRuneSize := 0 } := by
  cases hr : s.right with
  | nil => rw [next_nil hr] at h; simp at h
  | cons d rest =>
      rw [next_cons hr] at h
      simp only [Prod.mk.injEq, Option.some.injEq] at h
      obtain ⟨hdc, hs1⟩ := h
      subst hs1
      have hsz : 0 < d.utf8Size := Char.utf8Size_pos d
      have hlen : (String.utf8EncodeChar d).length = d.utf8Size :=
        String.length_utf8EncodeChar d
      simp only [backup]
      rw [if_neg (by omega), if_neg (by simp [hlen])]
      simp [hlen, hr, List.take_left]

/-! ## Invariants of a run -/

/-- Adjacent-pair constraint behind claim C3: a Keyword token is directly
followed by a Value or an Error token. -/
def KeyStep (a b : Token) : Prop :=
  a.tokenType = .ItemKeyword → b.tokenType = .ItemValue ∨ b.tokenType = .ItemError

/-- Invariant of the emitted-token list while the machine is still running:
token texts are source slices (up to the end-of-input NUL), positions are
non-decreasing and bounded by `bound`, Keywords are followed by
Value/Error, and no EndOfStream has been emitted yet. -/
def OutOk (input : List Char) (ts : List Token) (bound : Int) : Prop :=
  (∀ t ∈ ts, tokenTextOkNul input t) ∧
  positionsMonotone ts ∧
  List.Chain' KeyStep ts ∧
  (∀ t, ts.getLast? = some t → t.position ≤ bound) ∧
  (∀ t ∈ ts, t.tokenType ≠ .ItemEOF)

/-- The shape of a completed token stream: like `OutOk` but ending in
exactly one EndOfStream. -/
def OutFinal (input : List Char) (ts : List Token) : Prop :=
  (∀ t ∈ ts, tokenTextOkNul input t) ∧
  positionsMonotone ts ∧
  List.Chain' KeyStep ts ∧
  (∀ t ∈ ts.dropLast, t.tokenType ≠ .ItemEOF) ∧
  (∃ t, ts.getLast? = some t ∧ t.tokenType = .ItemEOF)

/-- Machine-state invariant between state-function calls. -/
def Inv (input : List Char) (s : LexState) : Prop :=
  s.src = input ∧ s.pos = (byteLen s.left : Int) ∧
  0 ≤ s.start ∧ s.start ≤ s.pos ∧ OutOk input s.out s.start

/-- Facts tied to the particular state function about to run. -/
def TagOk (tag : StateF) (s : LexState) : Prop :=
  (tag = .comment → s.buf = [] ∧ s.start = s.pos) ∧
  (tag = .sec → ∃ rest, s.right = '[' :: rest) ∧
  (∀ t, s.out.getLast? = some t → t.tokenType = .ItemKeyword → tag = .value)

/-- The token buffer holds exactly the bytes of the runes consumed since the
last buffer reset. -/
def BufSeg (s : LexState) : Prop :=
  ∃ l0 mid, s.left = mid.reverse ++ l0 ∧ s.start = (byteLen l0 : Int) ∧
    s.buf = srcBytes mid ∧ s.pos = (byteLen l0 : Int) + (byteLen mid : Int)

theorem OutOk_nil (input : List Char) (bound : Int) : OutOk input [] bound := by
  refine ⟨?_, ?_, ?_, ?_, ?_⟩ <;> simp [positionsMonotone]

theorem OutOk_mono {input : List Char} {ts : List Token} {bound bound' : Int}
    (h : OutOk input ts bound) (hb : bound ≤ bound') : OutOk input ts bound' := by
  obtain ⟨h1, h2, h3, h4, h5⟩ := h
  exact ⟨h1, h2, h3, fun t ht => le_trans (h4 t ht) hb, h5⟩

theorem OutOk_append {input : List Char} {ts : List Token} {bound : Int}
    (bound' : Int) (t : Token) (h : OutOk input ts bound)
    (h1 : tokenTextOkNul input t) (h2 : bound ≤ t.position)
    (h3 : t.tokenType ≠ .ItemEOF)
    (h4 : ∀ a, ts.getLast? = some a → a.tokenType = .ItemKeyword →
      t.tokenType = .ItemValue ∨ t.tokenType = .ItemError)
    (h5 : t.position ≤ bound') :
    OutOk input (ts ++ [t]) bound' := by
  obtain ⟨g1, g2, g3, g4, g5⟩ := h
  refine ⟨?_, ?_, ?_, ?_, ?_⟩
  · intro u hu
    rcases List.mem_append.1 hu with hu | hu
    · exact g1 u hu
    · simp at hu; subst hu; exact h1
  · rw [positionsMonotone, List.chain'_append]
    refine ⟨g2, List.chain'_singleton t, ?_⟩
    intro x hx y hy
    simp at hy; subst hy
    exact le_trans (g4 x hx) h2
  · rw [List.chain'_append]
    refine ⟨g3, List.chain'_singleton t, ?_⟩
    intro x hx y hy
    simp at hy; subst hy
    exact h4 x hx
  · intro u hu
    rw [List.getLast?_concat] at hu
    cases hu
    exact h5
  · intro u hu
    rcases List.mem_append.1 hu with hu | hu
    · exact g5 u hu
    · simp at hu; subst hu; exact h3

theorem OutFinal_append {input : List Char} {ts : List Token} {bound : Int}
    (t : Token) (h : OutOk input ts bound)
    (h1 : tokenTextOkNul input t) (h2 : bound ≤ t.position)
    (h3 : t.tokenType = .ItemEOF)
    (h4 : ∀ a, ts.getLast? = some a → a.tokenType ≠ .ItemKeyword) :
    OutFinal input (ts ++ [t]) := by
  obtain ⟨g1, g2, g3, g4, g5⟩ := h
  refine ⟨?_, ?_, ?_, ?_, ?_⟩
  · intro u hu
    rcases List.mem_append.1 hu with hu | hu
    · exact g1 u hu
    · simp at hu; subst hu; exact h1
  · rw [positionsMonotone, List.chain'_append]
    refine ⟨g2, List.chain'_singleton t, ?_⟩
    intro x hx y hy
    simp at hy; subst hy
    exact le_trans (g4 x hx) h2
  · rw [List.chain'_append]
    refine ⟨g3, List.chain'_singleton t, ?_⟩
    intro x hx y hy
    simp at hy; subst hy
    intro hk
    exact absurd hk (h4 x hx)
  · intro u hu
    rw [List.dropLast_concat] at hu
    exact g5 u hu
  · exact ⟨t, List.getLast?_concat ts, h3⟩

/-- Text correctness of a token cut out of the source as a segment. -/
theorem tokenTextOkNul_seg {input : List Char} (l0 mid r : List Char) (ty : ItemType)
    (hin : input = l0.reverse ++ (mid ++ r)) (extra : List UInt8)
    (hx : extra = [] ∨ extra = [0]) :
    tokenTextOkNul input
      ⟨ty, (byteLen l0 : Int), (byteLen mid : Int), srcBytes mid ++ extra⟩ := by
  subst hin
  rcases hx with rfl | rfl
  · left
    simp [tokenTextOkNul, slice_src]
  · right
    simp [tokenTextOkNul, slice_src]

theorem tokenTextOkNul_emptyTok (input : List Char) (ty : ItemType) (p : Int) :
    tokenTextOkNul input ⟨ty, p, 0, []⟩ := by
  left
  simp [sliceBytes]

/-! ## Characterizations of the reading loops -/

theorem cast_byteLen_cons (c : Char) (cs : List Char) :
    (byteLen (c :: cs) : Int) = (c.utf8Size : Int) + (byteLen cs : Int) := by
  simp [byteLen]

/-- Full characterization of `takeRunes`: it consumes the longest prefix of
`accept` runes, up to `max` of them, reporting `io.EOF` when the input ran
out first. -/
theorem takeRunes_spec (accept : Char) :
    ∀ (m : Nat) (s : LexState),
    ∃ k e pr s1, takeRunes accept m s = some (k, e, s1) ∧
      s1 = ⟨(s.right.take k).reverse ++ s.left, s.right.drop k,
        s.buf ++ srcBytes (s.right.take k) ++ (if e then [0] else []),
        pr, s.pos + (byteLen (s.right.take k) : Int), s.start, s.out⟩ ∧
      k ≤ m ∧ s.right.take k = List.replicate k accept ∧
      (e = true → s.right.drop k = [] ∧ k < m) ∧
      (e = false → k = m ∨ ∃ c rest, s.right.drop k = c :: rest ∧ c ≠ accept) := by
  intro m
  induction m with
  | zero =>
      intro s
      refine ⟨0, false, s.prevRuneSize, s, ?_, ?_, ?_, ?_, ?_, ?_⟩ <;>
        simp [takeRunes, srcBytes, byteLen]
  | succ m ih =>
      intro s
      cases hr : s.right with
      | nil =>
          refine ⟨0, true, 0, ⟨s.left, s.right, s.buf ++ [0], 0, s.pos, s.start, s.out⟩,
            ?_, ?_, ?_, ?_, ?_, ?_⟩
          · simp only [takeRunes, next_nil hr]
          · simp [hr, srcBytes, byteLen]
          · omega
          · simp [hr]
          · intro _; simp [hr]
          · simp
      | cons c rest =>
          by_cases hc : c = accept
          · subst hc
            obtain ⟨k, e, pr, s1, hres, hs1, hk, htake, he1, he0⟩ :=
              ih ⟨c :: s.left, rest, s.buf ++ String.utf8EncodeChar c,
                c.utf8Size, s.pos + (c.utf8Size : Int), s.start, s.out⟩
            refine ⟨k + 1, e, pr, s1, ?_, ?_, ?_, ?_, ?_, ?_⟩
            · simp only [takeRunes, next_cons hr, if_true]
              rw [hres]
            · rw [hs1]
              simp [hr, srcBytes, List.append_assoc, cast_byteLen_cons, add_assoc,
                List.take_succ_cons, List.drop_succ_cons]
            · omega
            · simp [hr, List.take_succ_cons, htake, List.replicate_succ]
            · intro he
              obtain ⟨h1, h2⟩ := he1 he
              refine ⟨?_, by omega⟩
              simp [hr, List.drop_succ_cons, h1]
            · intro he
              rcases he0 he with h | ⟨d, rest2, hd, hne⟩
              · left; omega
              · right
                exact ⟨d, rest2, by simp [hr, List.drop_succ_cons, hd], hne⟩
          · have hb := backup_next (next_cons hr)
            refine ⟨0, false, 0, { s with prevRuneSize := 0 }, ?_, ?_, ?_, ?_, ?_, ?_⟩
            · simp only [takeRunes, next_cons hr]
              rw [if_neg hc, hb]
            · simp [srcBytes, byteLen, hr]
            · omega
            · simp
            · simp
            · intro _
              right
              exact ⟨c, rest, by simp [hr], hc⟩

/-- Characterization of the `acceptRun` loop given enough fuel: it consumes
the maximal run of `accept` runes. -/
theorem acceptRunF_spec (accept : Char) :
    ∀ (fuel : Nat) (s : LexState), s.rem < fuel →
    ∃ k e pr s1, acceptRunF accept fuel s = some (k, e, s1) ∧
      s1 = ⟨(s.right.take k).reverse ++ s.left, s.right.drop k,
        s.buf ++ srcBytes (s.right.take k) ++ (if e then [0] else []),
        pr, s.pos + (byteLen (s.right.take k) : Int), s.start, s.out⟩ ∧
      s.right.take k = List.replicate k accept ∧
      (e = true → s.right.drop k = []) ∧
      (e = false → ∃ c rest, s.right.drop k = c :: rest ∧ c ≠ accept) := by
  intro fuel
  induction fuel with
  | zero => intro s h; exact absurd h (by omega)
  | succ fuel ih =>
      intro s hf
      cases hr : s.right with
      | nil =>
          refine ⟨0, true, 0, ⟨s.left, s.right, s.buf ++ [0], 0, s.pos, s.start, s.out⟩,
            ?_, ?_, ?_, ?_, ?_⟩
          · simp only [acceptRunF, next_nil hr]
          · simp [hr, srcBytes, byteLen]
          · simp [hr]
          · intro _; simp [hr]
          · simp
      | cons c rest =>
          by_cases hc : c = accept
          · subst hc
            have hrem : rest.length < fuel := by
              have h1 : s.rem = rest.length + 1 := by simp [LexState.rem, hr]
              omega
            obtain ⟨k, e, pr, s1, hres, hs1, htake, he1, he0⟩ :=
              ih ⟨c :: s.left, rest, s.buf ++ String.utf8EncodeChar c,
                c.utf8Size, s.pos + (c.utf8Size : Int), s.start, s.out⟩ hrem
            refine ⟨k + 1, e, pr, s1, ?_, ?_, ?_, ?_, ?_⟩
            · simp only [acceptRunF, next_cons hr, if_true]
              rw [hres]
            · rw [hs1]
              simp [hr, srcBytes, List.append_assoc, cast_byteLen_cons, add_assoc,
                List.take_succ_cons, List.drop_succ_cons]
            · simp [hr, List.take_succ_cons, htake, List.replicate_succ]
            · intro he
              simp [hr, List.drop_succ_cons, he1 he]
            · intro he
              obtain ⟨d, rest2, hd, hne⟩ := he0 he
              exact ⟨d, rest2, by simp [hr, List.drop_succ_cons, hd], hne⟩
          · have hb := backup_next (next_cons hr)
            refine ⟨0, false, 0, { s with prevRuneSize := 0 }, ?_, ?_, ?_, ?_, ?_⟩
            · simp only [acceptRunF, next_cons hr]
              rw [if_neg hc, hb]
            · simp [srcBytes, byteLen, hr]
            · simp
            · simp
            · intro _
              exact ⟨c, rest, by simp [hr], hc⟩

/-- Characterization of `skipWhitespace` given enough fuel: it consumes the
maximal whitespace prefix; unless the input ran out it then resets the
token buffer. -/
theorem skipWhitespaceF_spec :
    ∀ (fuel : Nat) (s : LexState), s.rem < fuel →
    ∃ s1, skipWhitespaceF fuel s = some s1 ∧
      s1.right = s.right.dropWhile goIsSpace ∧
      s1.left = (s.right.takeWhile goIsSpace).reverse ++ s.left ∧
      s1.pos = s.pos + (byteLen (s.right.takeWhile goIsSpace) : Int) ∧
      s1.out = s.out ∧
      ((s1.start = s.start ∧ s1.right = []) ∨ (s1.start = s1.pos ∧ s1.buf = [])) := by
  intro fuel
  induction fuel with
  | zero => intro s h; exact absurd h (by omega)
  | succ fuel ih =>
      intro s hf
      cases hr : s.right with
      | nil =>
          refine ⟨⟨s.left, s.right, s.buf ++ [0], 0, s.pos, s.start, s.out⟩,
            ?_, ?_, ?_, ?_, ?_, ?_⟩
          · simp only [skipWhitespaceF, next_nil hr]
          · simp [hr]
          · simp [hr]
          · simp [hr, byteLen]
          · simp
          · left; simp [hr]
      | cons c rest =>
          by_cases hc : goIsSpace c
          · have hrem : rest.length < fuel := by
              have h1 : s.rem = rest.length + 1 := by simp [LexState.rem, hr]
              omega
            obtain ⟨s1, hres, h1, h2, h3, h4, h5⟩ :=
              ih ⟨c :: s.left, rest, s.buf ++ String.utf8EncodeChar c,
                c.utf8Size, s.pos + (c.utf8Size : Int), s.start, s.out⟩ hrem
            refine ⟨s1, ?_, ?_, ?_, ?_, ?_, ?_⟩
            · simp only [skipWhitespaceF, next_cons hr]
              rw [if_pos hc, hres]
            · simp [hr, h1, List.dropWhile_cons, hc]
            · simp [hr, h2, List.takeWhile_cons, hc, List.append_assoc]
            · simp [hr, h3, List.takeWhile_cons, hc, cast_byteLen_cons, add_assoc]
            · exact h4
            · rcases h5 with ⟨ha, hb⟩ | hb
              · left; exact ⟨ha, hb⟩
              · right; exact hb
          · have hb := backup_next (next_cons hr)
            refine ⟨⟨s.left, s.right, [], 0, s.pos, s.pos, s.out⟩, ?_, ?_, ?_, ?_, ?_, ?_⟩
            · simp only [skipWhitespaceF, next_cons hr]
              rw [if_neg (by simp [hc]), hb]
              rfl
            · simp [hr, List.dropWhile_cons, hc]
            · simp [hr, List.takeWhile_cons, hc]
            · simp [hr, List.takeWhile_cons, hc, byteLen]
            · simp
            · right; simp

/-! ## Per-state-function specifications -/

/-- Weight of a state in the termination measure of the machine. -/
def weight : StateF → Nat
  | .generic => 1
  | _ => 0

/-- What one whole state-function call guarantees: no panic, the queue only
grows, and either the machine halts with a completed stream or the
invariant carries to the next state with a smaller measure. -/
def StepOk (input : List Char) (tag : StateF) (s : LexState)
    (res : Option (LexState × Option StateF)) : Prop :=
  ∃ s1 n1, res = some (s1, n1) ∧ (∃ ts, s1.out = s.out ++ ts) ∧
    ((n1 = none ∧ OutFinal input s1.out) ∨
     (∃ tag1, n1 = some tag1 ∧ Inv input s1 ∧ TagOk tag1 s1 ∧
        2 * s1.rem + weight tag1 < 2 * s.rem + weight tag))

/-- Like `StepOk` but for the inner loops, which always consume at least one
rune before transferring control to `lexGeneric` or `lexValue`. -/
def LoopOk (input : List Char) (s : LexState)
    (res : Option (LexState × Option StateF)) : Prop :=
  ∃ s1 n1, res = some (s1, n1) ∧ (∃ ts, s1.out = s.out ++ ts) ∧
    ((n1 = none ∧ OutFinal input s1.out) ∨
     (∃ tag1, n1 = some tag1 ∧ (tag1 = .generic ∨ tag1 = .value) ∧
        Inv input s1 ∧ TagOk tag1 s1 ∧ s1.rem < s.rem))

theorem BufSeg_input {input : List Char} {s : LexState}
    (hsrc : s.src = input) (hB : BufSeg s) :
    ∃ l0 mid, s.left = mid.reverse ++ l0 ∧ s.start = (byteLen l0 : Int) ∧
      s.buf = srcBytes mid ∧ s.pos = (byteLen l0 : Int) + (byteLen mid : Int) ∧
      input = l0.reverse ++ (mid ++ s.right) := by
  obtain ⟨l0, mid, h1, h2, h3, h4⟩ := hB
  refine ⟨l0, mid, h1, h2, h3, h4, ?_⟩
  rw [← hsrc]
  simp [LexState.src, h1, List.append_assoc]

/-- Emitting a non-EOF token from a segment-shaped state keeps the machine
invariant; the queue grows by exactly that token, which becomes its last
element. -/
theorem emit_step {input : List Char} {s : LexState} (l0 mid : List Char)
    (extra : List UInt8) (hx : extra = [] ∨ extra = [0])
    (hleft : s.left = mid.reverse ++ l0)
    (hstart : s.start = (byteLen l0 : Int))
    (hbuf : s.buf = srcBytes mid ++ extra)
    (hpos : s.pos = (byteLen l0 : Int) + (byteLen mid : Int))
    (hsrc : s.src = input)
    (hout : OutOk input s.out s.start)
    (ty : ItemType) (hty : ty ≠ .ItemEOF)
    (hkey : ∀ a, s.out.getLast? = some a → a.tokenType = .ItemKeyword →
        ty = .ItemValue ∨ ty = .ItemError) :
    Inv input (emit s ty) ∧
    (emit s ty).out = s.out ++ [⟨ty, s.start, s.pos - s.start, s.buf⟩] ∧
    (∀ a, (emit s ty).out.getLast? = some a → a.tokenType = ty) := by
  have hin : input = l0.reverse ++ (mid ++ s.right) := by
    rw [← hsrc]
    simp [LexState.src, hleft, List.append_assoc]
  have hlen : s.pos - s.start = (byteLen mid : Int) := by
    rw [hstart, hpos]; ring
  have htok : tokenTextOkNul input ⟨ty, s.start, s.pos - s.start, s.buf⟩ := by
    rw [hlen, hstart, hbuf]
    exact tokenTextOkNul_seg l0 mid s.right ty hin extra hx
  have hposle : s.start ≤ s.pos := by
    rw [hstart, hpos]
    have h1 : (0 : Int) ≤ (byteLen mid : Int) := by positivity
    omega
  have hpos0 : 0 ≤ s.start := by rw [hstart]; positivity
  have hnew : OutOk input (s.out ++ [⟨ty, s.start, s.pos - s.start, s.buf⟩]) s.pos :=
    OutOk_append s.pos _ hout htok le_rfl hty (fun a ha hk => hkey a ha hk) hposle
  refine ⟨⟨?_, ?_, ?_, ?_, ?_⟩, rfl, ?_⟩
  · exact hsrc
  · show s.pos = (byteLen s.left : Int)
    rw [hpos, hleft, byteLen_append, byteLen_reverse]
    push_cast
    ring
  · show (0 : Int) ≤ s.pos
    exact le_trans hpos0 hposle
  · show s.pos ≤ s.pos
    exact le_rfl
  · exact hnew
  · intro a ha
    simp only [emit_eq, List.getLast?_concat, Option.some.injEq] at ha
    rw [← ha]

/-- Emitting the final EndOfStream right after another emit (or a buffer
reset) completes the stream. -/
theorem emit_eof_final {input : List Char} {s : LexState} (hI : Inv input s)
    (hse : s.start = s.pos) (hbe : s.buf = [])
    (hlast : ∀ a, s.out.getLast? = some a → a.tokenType ≠ .ItemKeyword) :
    OutFinal input (emit s .ItemEOF).out ∧
    (emit s .ItemEOF).out =
      s.out ++ [⟨.ItemEOF, s.start, s.pos - s.start, s.buf⟩] := by
  obtain ⟨hsrc, hposL, h0, hle, hout⟩ := hI
  have hz : s.pos - s.start = 0 := by omega
  have htok : tokenTextOkNul input ⟨.ItemEOF, s.start, s.pos - s.start, s.buf⟩ := by
    rw [hz, hbe]
    exact tokenTextOkNul_emptyTok input _ s.start
  exact ⟨OutFinal_append _ hout htok le_rfl rfl hlast, rfl⟩

theorem TagOk_generic {s : LexState}
    (h : ∀ t, s.out.getLast? = some t → t.tokenType ≠ .ItemKeyword) :
    TagOk .generic s := by
  refine ⟨?_, ?_, ?_⟩
  · intro h1; exact nomatch h1
  · intro h1; exact nomatch h1
  · intro t ht hk; exact absurd hk (h t ht)

theorem TagOk_value (s : LexState) : TagOk .value s := by
  refine ⟨?_, ?_, ?_⟩
  · intro h1; exact nomatch h1
  · intro h1; exact nomatch h1
  · intro _ _ _; rfl

theorem last_ne_keyword {ts : List Token} {ty : ItemType} (hty : ty ≠ .ItemKeyword)
    (h : ∀ a, ts.getLast? = some a → a.tokenType = ty) :
    ∀ a, ts.getLast? = some a → a.tokenType ≠ .ItemKeyword := by
  intro a ha hk
  rw [h a ha] at hk
  exact hty hk

/-- Specification of the `lexKey` loop: it never panics, and either halts the
machine on end of input (Error then EndOfStream) or hands over to
`lexGeneric` (bad key) or `lexValue` (after emitting the Keyword), always
having consumed at least one rune. -/
theorem lexKeyF_spec (input : List Char) :
    ∀ (fuel : Nat) (s : LexState), s.rem < fuel → Inv input s → BufSeg s →
    (∀ t, s.out.getLast? = some t → t.tokenType ≠ .ItemKeyword) →
    LoopOk input s (lexKeyF fuel s) := by
  intro fuel
  induction fuel with
  | zero => intro s h _ _ _; exact absurd h (by omega)
  | succ fuel ih =>
      intro s hf hI hB hpend
      obtain ⟨l0, mid, hleft, hstart, hbuf, hpos, hin⟩ := BufSeg_input hI.1 hB
      cases hr : s.right with
      | nil =>
          obtain ⟨hIe, houte, hlaste⟩ :=
            emit_step (s := ⟨s.left, s.right, s.buf ++ [0], 0, s.pos, s.start, s.out⟩)
              l0 mid [0] (Or.inr rfl) hleft hstart (by rw [hbuf]) hpos hI.1
              hI.2.2.2.2 .ItemError (by decide)
              (fun a ha hk => (hpend a ha hk).elim)
          obtain ⟨hfin, houtf⟩ :=
            emit_eof_final hIe rfl rfl (last_ne_keyword (by decide) hlaste)
          have hext2 :
              (emit (emit ⟨s.left, s.right, s.buf ++ [0], 0, s.pos, s.start, s.out⟩
                  .ItemError) .ItemEOF).out =
                s.out ++ [⟨.ItemError, s.start, s.pos - s.start, s.buf ++ [0]⟩,
                  ⟨.ItemEOF, s.pos, s.pos - s.pos, []⟩] := by
            rw [houtf, houte]
            simp [emit_eq, List.append_assoc]
          refine ⟨_, none, ?_, ⟨_, hext2⟩, Or.inl ⟨rfl, hfin⟩⟩
          simp only [lexKeyF, next_nil hr]
      | cons c rest =>
          have hnext := next_cons hr
          have hrem1 : rest.length < fuel := by
            have h1 : s.rem = rest.length + 1 := by simp [LexState.rem, hr]
            omega
          have hsrc1 :
              (⟨c :: s.left, rest, s.buf ++ String.utf8EncodeChar c, c.utf8Size,
                s.pos + (c.utf8Size : Int), s.start, s.out⟩ : LexState).src = input := by
            rw [← hI.1]
            simp [LexState.src, hr, List.append_assoc]
          have hleft1 : (c :: s.left : List Char) = (mid ++ [c]).reverse ++ l0 := by
            simp [hleft, List.append_assoc]
          have hbuf1 : s.buf ++ String.utf8EncodeChar c = srcBytes (mid ++ [c]) ++ [] := by
            simp [hbuf, srcBytes_append, srcBytes]
          have hpos1 : s.pos + (c.utf8Size : Int) =
              (byteLen l0 : Int) + (byteLen (mid ++ [c]) : Int) := by
            rw [hpos, byteLen_append]
            push_cast
            simp only [byteLen]
            push_cast
            ring
          have hremS : s.rem = rest.length + 1 := by simp [LexState.rem, hr]
          by_cases hnl : c = '\n'
          · obtain ⟨hIe, houte, hlaste⟩ :=
              emit_step (s := ⟨c :: s.left, rest, s.buf ++ String.utf8EncodeChar c,
                  c.utf8Size, s.pos + (c.utf8Size : Int), s.start, s.out⟩)
                l0 (mid ++ [c]) [] (Or.inl rfl) hleft1 hstart hbuf1 hpos1 hsrc1
                hI.2.2.2.2 .ItemError (by decide)
                (fun a ha hk => (hpend a ha hk).elim)
            refine ⟨_, some .generic, ?_, ⟨_, houte⟩,
              Or.inr ⟨.generic, rfl, Or.inl rfl, hIe,
                TagOk_generic (last_ne_keyword (by decide) hlaste), ?_⟩⟩
            · simp only [lexKeyF, hnext]
              rw [if_pos hnl]
            · show rest.length < s.rem
              omega
          · by_cases heq : c = '='
            · by_cases hg : s.pos = s.start
              · obtain ⟨hIe, houte, hlaste⟩ :=
                  emit_step (s := ⟨c :: s.left, rest, s.buf ++ String.utf8EncodeChar c,
                      c.utf8Size, s.pos + (c.utf8Size : Int), s.start, s.out⟩)
                    l0 (mid ++ [c]) [] (Or.inl rfl) hleft1 hstart hbuf1 hpos1 hsrc1
                    hI.2.2.2.2 .ItemError (by decide)
                    (fun a ha hk => (hpend a ha hk).elim)
                refine ⟨_, some .generic, ?_, ⟨_, houte⟩,
                  Or.inr ⟨.generic, rfl, Or.inl rfl, hIe,
                    TagOk_generic (last_ne_keyword (by decide) hlaste), ?_⟩⟩
                · simp only [lexKeyF, hnext]
                  rw [if_neg hnl, if_pos heq, if_pos (by simp; omega)]
                · show rest.length < s.rem
                  omega
              · have hbk := backup_next hnext
                obtain ⟨hIk, houtk, hlastk⟩ :=
                  emit_step (s := { s with prevRuneSize := 0 }) l0 mid [] (Or.inl rfl)
                    hleft hstart (by simpa using hbuf) hpos hI.1 hI.2.2.2.2
                    .ItemKeyword (by decide)
                    (fun a ha hk => (hpend a ha hk).elim)
                have hKright :
                    (emit { s with prevRuneSize := 0 } .ItemKeyword).right = c :: rest := hr
                have hnext2 := next_cons hKright
                have hK2 : (next (emit { s with prevRuneSize := 0 } .ItemKeyword)).2 =
                    ⟨c :: s.left, rest, String.utf8EncodeChar c, c.utf8Size,
                      s.pos + (c.utf8Size : Int), s.pos,
                      s.out ++ [⟨.ItemKeyword, s.start, s.pos - s.start, s.buf⟩]⟩ := by
                  rw [hnext2]
                  rfl
                refine ⟨(next (emit { s with prevRuneSize := 0 } .ItemKeyword)).2,
                  some .value, ?_,
                  ⟨[⟨.ItemKeyword, s.start, s.pos - s.start, s.buf⟩], ?_⟩,
                  Or.inr ⟨.value, rfl, Or.inr rfl, ?_, TagOk_value _, ?_⟩⟩
                · simp only [lexKeyF, hnext]
                  rw [if_neg hnl, if_pos heq, if_neg (by simp; omega), hbk]
                · rw [hK2]
                · rw [hK2]
                  obtain ⟨g1, g2, g3, g4, g5⟩ := hIk
                  refine ⟨?_, ?_, ?_, ?_, ?_⟩
                  · rw [← hI.1]
                    simp [LexState.src, hr, List.append_assoc]
                  · show s.pos + (c.utf8Size : Int) = (byteLen (c :: s.left) : Int)
                    rw [hI.2.1, cast_byteLen_cons]
                    ring
                  · show (0 : Int) ≤ s.pos
                    exact le_trans hI.2.2.1 hI.2.2.2.1
                  · show s.pos ≤ s.pos + (c.utf8Size : Int)
                    have h1 : (0 : Int) ≤ (c.utf8Size : Int) := by positivity
                    omega
                  · exact g5
                · rw [hK2]
                  show rest.length < s.rem
                  omega
            · have hIs1 : Inv input
                  ⟨c :: s.left, rest, s.buf ++ String.utf8EncodeChar c, c.utf8Size,
                    s.pos + (c.utf8Size : Int), s.start, s.out⟩ := by
                refine ⟨hsrc1, ?_, hI.2.2.1, ?_, hI.2.2.2.2⟩
                · show s.pos + (c.utf8Size : Int) = (byteLen (c :: s.left) : Int)
                  rw [hI.2.1, cast_byteLen_cons]
                  ring
                · show s.start ≤ s.pos + (c.utf8Size : Int)
                  have h1 : (0 : Int) ≤ (c.utf8Size : Int) := by positivity
                  have h2 := hI.2.2.2.1
                  omega
              have hBs1 : BufSeg
                  ⟨c :: s.left, rest, s.buf ++ String.utf8EncodeChar c, c.utf8Size,
                    s.pos + (c.utf8Size : Int), s.start, s.out⟩ :=
                ⟨l0, mid ++ [c], hleft1, hstart, by simpa using hbuf1, hpos1⟩
              obtain ⟨sf, nf, hres, ⟨ts, hext⟩, hcase⟩ :=
                ih ⟨c :: s.left, rest, s.buf ++ String.utf8EncodeChar c, c.utf8Size,
                    s.pos + (c.utf8Size : Int), s.start, s.out⟩
                  (show LexState.rem _ < fuel from hrem1) hIs1 hBs1 hpend
              refine ⟨sf, nf, ?_, ⟨ts, hext⟩, ?_⟩
              · simp only [lexKeyF, hnext]
                rw [if_neg hnl, if_neg heq, hres]
              · rcases hcase with h | ⟨tag1, hn, htag, hInv1, hT, hremf⟩
                · exact Or.inl h
                · refine Or.inr ⟨tag1, hn, htag, hInv1, hT, ?_⟩
                  have hremf2 : sf.rem < rest.length := hremf
                  omega

/-- One whole `lexKey` state-function call satisfies the step contract. -/
theorem lexKey_spec (input : List Char) (s : LexState)
    (hI : Inv input s) (hT : TagOk .key s) : StepOk input .key s (lexKey s) := by
  have hpend : ∀ t, s.out.getLast? = some t → t.tokenType ≠ .ItemKeyword := by
    intro t ht hk
    cases hT.2.2 t ht hk
  have hI0 : Inv input (resetTokenBuffer s) := by
    obtain ⟨h1, h2, h3, h4, h5⟩ := hI
    exact ⟨h1, h2, le_trans h3 h4, le_rfl, OutOk_mono h5 h4⟩
  have hB0 : BufSeg (resetTokenBuffer s) := by
    refine ⟨s.left, [], rfl, ?_, rfl, ?_⟩
    · show s.pos = (byteLen s.left : Int)
      exact hI.2.1
    · show s.pos = (byteLen s.left : Int) + (byteLen ([] : List Char) : Int)
      rw [hI.2.1]
      simp [byteLen]
  obtain ⟨s1, n1, hres, ⟨ts, hext⟩, hcase⟩ :=
    lexKeyF_spec input (s.rem + 1) (resetTokenBuffer s)
      (show (resetTokenBuffer s).rem < s.rem + 1 from Nat.lt_succ_self _) hI0 hB0 hpend
  refine ⟨s1, n1, hres, ⟨ts, hext⟩, ?_⟩
  rcases hcase with ⟨hn, hfin⟩ | ⟨tag1, hn, htag, hInv1, hT1, hrem1⟩
  · exact Or.inl ⟨hn, hfin⟩
  · refine Or.inr ⟨tag1, hn, hInv1, hT1, ?_⟩
    have hr0 : (resetTokenBuffer s).rem = s.rem := rfl
    rcases htag with rfl | rfl
    · show 2 * s1.rem + 1 < 2 * s.rem + 0
      omega
    · show 2 * s1.rem + 0 < 2 * s.rem + 0
      omega

theorem readRune_nil {s : LexState} (h : s.right = []) : readRune s = (none, s) := by
  simp [readRune, h]

theorem readRune_cons {s : LexState} {c : Char} {rest : List Char}
    (h : s.right = c :: rest) :
    readRune s = (some (c, c.utf8Size),
      ⟨c :: s.left, rest, s.buf, s.prevRuneSize, s.pos, s.start, s.out⟩) := by
  simp [readRune, h]

/-- Specification of the `lexComment` loop: it consumes through the end of
the line (or input), emits the Comment token when non-degenerate, and
either halts (at EOF) or returns to `lexGeneric` past the newline. -/
theorem lexCommentF_spec (input : List Char) :
    ∀ (fuel : Nat) (s : LexState), s.rem < fuel → Inv input s → BufSeg s →
    (∀ t, s.out.getLast? = some t → t.tokenType ≠ .ItemKeyword) →
    LoopOk input s (lexCommentF fuel s) := by
  intro fuel
  induction fuel with
  | zero => intro s h _ _ _; exact absurd h (by omega)
  | succ fuel ih =>
      intro s hf hI hB hpend
      obtain ⟨l0, mid, hleft, hstart, hbuf, hpos, hin⟩ := BufSeg_input hI.1 hB
      cases hr : s.right with
      | nil =>
          by_cases hps : s.pos ≠ s.start
          · obtain ⟨hIe, houte, hlaste⟩ :=
              emit_step (s := s) l0 mid [] (Or.inl rfl) hleft hstart
                (by simpa using hbuf) hpos hI.1 hI.2.2.2.2 .itemComment (by decide)
                (fun a ha hk => (hpend a ha hk).elim)
            obtain ⟨hfin, houtf⟩ :=
              emit_eof_final hIe rfl rfl (last_ne_keyword (by decide) hlaste)
            have hext2 : (emit (emit s .itemComment) .ItemEOF).out =
                s.out ++ [⟨.itemComment, s.start, s.pos - s.start, s.buf⟩,
                  ⟨.ItemEOF, s.pos, s.pos - s.pos, []⟩] := by
              rw [houtf, houte]
              simp [emit_eq, List.append_assoc]
            refine ⟨_, none, ?_, ⟨_, hext2⟩, Or.inl ⟨rfl, hfin⟩⟩
            simp only [lexCommentF, readRune_nil hr]
            rw [if_pos hps]
          · have hpseq : s.pos = s.start := not_not.mp hps
            have hmid : byteLen mid = 0 := by
              have h1 : (byteLen mid : Int) = 0 := by
                rw [hstart, hpos] at hpseq
                omega
              exact_mod_cast h1
            have hbe : s.buf = [] := by
              rw [hbuf, byteLen_eq_zero hmid]
              rfl
            obtain ⟨hfin, houtf⟩ := emit_eof_final hI hpseq.symm hbe hpend
            refine ⟨_, none, ?_, ⟨_, houtf⟩, Or.inl ⟨rfl, hfin⟩⟩
            simp only [lexCommentF, readRune_nil hr]
            rw [if_neg hps]

      | cons c rest =>
          have hread := readRune_cons hr
          have hrem1 : rest.length < fuel := by
            have h1 : s.rem = rest.length + 1 := by simp [LexState.rem, hr]
            omega
          have hremS : s.rem = rest.length + 1 := by simp [LexState.rem, hr]
          by_cases hnl : c = '\n'
          · by_cases hps : s.pos ≠ s.start
            · -- emit the Comment, account the newline, back to Generic
              have hin2 : input = l0.reverse ++ ((mid ++ []) ++ s.right) := by
                simpa using hin
              have htok : tokenTextOkNul input
                  ⟨.itemComment, s.start, s.pos - s.start, s.buf⟩ := by
                have hlen : s.pos - s.start = (byteLen mid : Int) := by
                  rw [hstart, hpos]; ring
                rw [hlen, hstart, hbuf]
                have h2 := tokenTextOkNul_seg l0 mid s.right .itemComment
                  (by simpa using hin) [] (Or.inl rfl)
                simpa using h2
              have hposle : s.start ≤ s.pos := hI.2.2.2.1
              have hnew : OutOk input
                  (s.out ++ [⟨.itemComment, s.start, s.pos - s.start, s.buf⟩]) s.pos :=
                OutOk_append s.pos _ hI.2.2.2.2 htok le_rfl (fun h => nomatch h)
                  (fun a ha hk => (hpend a ha hk).elim) hposle
              refine ⟨⟨c :: s.left, rest, [], s.prevRuneSize, s.pos + (c.utf8Size : Int),
                  s.pos, s.out ++ [⟨.itemComment, s.start, s.pos - s.start, s.buf⟩]⟩,
                some .generic, ?_, ⟨_, rfl⟩,
                Or.inr ⟨.generic, rfl, Or.inl rfl, ?_, ?_, ?_⟩⟩
              · simp only [lexCommentF, hread]
                rw [if_pos hnl, if_pos hps]
                rfl
              · refine ⟨?_, ?_, ?_, ?_, ?_⟩
                · show (c :: s.left).reverse ++ rest = input
                  rw [← hI.1]
                  simp [LexState.src, hr, List.append_assoc]
                · show s.pos + (c.utf8Size : Int) = (byteLen (c :: s.left) : Int)
                  rw [hI.2.1, cast_byteLen_cons]
                  ring
                · show (0 : Int) ≤ s.pos
                  exact le_trans hI.2.2.1 hI.2.2.2.1
                · show s.pos ≤ s.pos + (c.utf8Size : Int)
                  have h1 : (0 : Int) ≤ (c.utf8Size : Int) := by positivity
                  omega
                · exact hnew
              · refine TagOk_generic ?_
                intro a ha hk
                simp only [List.getLast?_concat, Option.some.injEq] at ha
                rw [← ha] at hk
                exact nomatch hk
              · show rest.length < s.rem
                omega
            · -- degenerate comment: nothing emitted, newline consumed
              refine ⟨⟨c :: s.left, rest, s.buf, s.prevRuneSize,
                  s.pos + (c.utf8Size : Int), s.start, s.out⟩,
                some .generic, ?_, ⟨[], by simp⟩,
                Or.inr ⟨.generic, rfl, Or.inl rfl, ?_, TagOk_generic hpend, ?_⟩⟩
              · simp only [lexCommentF, hread]
                rw [if_pos hnl, if_neg hps]
              · refine ⟨?_, ?_, hI.2.2.1, ?_, hI.2.2.2.2⟩
                · show (c :: s.left).reverse ++ rest = input
                  rw [← hI.1]
                  simp [LexState.src, hr, List.append_assoc]
                · show s.pos + (c.utf8Size : Int) = (byteLen (c :: s.left) : Int)
                  rw [hI.2.1, cast_byteLen_cons]
                  ring
                · show s.start ≤ s.pos + (c.utf8Size : Int)
                  have h1 : (0 : Int) ≤ (c.utf8Size : Int) := by positivity
                  have h2 := hI.2.2.2.1
                  omega
              · show rest.length < s.rem
                omega
          · -- accumulate one comment rune and continue
            have hIs1 : Inv input
                ⟨c :: s.left, rest, s.buf ++ String.utf8EncodeChar c, s.prevRuneSize,
                  s.pos + (c.utf8Size : Int), s.start, s.out⟩ := by
              refine ⟨?_, ?_, hI.2.2.1, ?_, hI.2.2.2.2⟩
              · show (c :: s.left).reverse ++ rest = input
                rw [← hI.1]
                simp [LexState.src, hr, List.append_assoc]
              · show s.pos + (c.utf8Size : Int) = (byteLen (c :: s.left) : Int)
                rw [hI.2.1, cast_byteLen_cons]
                ring
              · show s.start ≤ s.pos + (c.utf8Size : Int)
                have h1 : (0 : Int) ≤ (c.utf8Size : Int) := by positivity
                have h2 := hI.2.2.2.1
                omega
            have hBs1 : BufSeg
                ⟨c :: s.left, rest, s.buf ++ String.utf8EncodeChar c, s.prevRuneSize,
                  s.pos + (c.utf8Size : Int), s.start, s.out⟩ := by
              refine ⟨l0, mid ++ [c], ?_, hstart, ?_, ?_⟩
              · show (c :: s.left : List Char) = (mid ++ [c]).reverse ++ l0
                simp [hleft, List.append_assoc]
              · show s.buf ++ String.utf8EncodeChar c = srcBytes (mid ++ [c])
                simp [hbuf, srcBytes_append, srcBytes]
              · show s.pos + (c.utf8Size : Int) =
                  (byteLen l0 : Int) + (byteLen (mid ++ [c]) : Int)
                rw [hpos, byteLen_append]
                push_cast
                simp only [byteLen]
                push_cast
                ring
            obtain ⟨sf, nf, hres, ⟨ts, hext⟩, hcase⟩ :=
              ih ⟨c :: s.left, rest, s.buf ++ String.utf8EncodeChar c, s.prevRuneSize,
                  s.pos + (c.utf8Size : Int), s.start, s.out⟩
                (show LexState.rem _ < fuel from hrem1) hIs1 hBs1 hpend
            refine ⟨sf, nf, ?_, ⟨ts, hext⟩, ?_⟩
            · simp only [lexCommentF, hread]
              rw [if_neg hnl]
              exact hres
            · rcases hcase with h | ⟨tag1, hn, htag, hInv1, hT, hremf⟩
              · exact Or.inl h
              · refine Or.inr ⟨tag1, hn, htag, hInv1, hT, ?_⟩
                have hremf2 : sf.rem < rest.length := hremf
                omega

/-- One whole `lexComment` state-function call satisfies the step contract. -/
theorem lexComment_spec (input : List Char) (s : LexState)
    (hI : Inv input s) (hT : TagOk .comment s) :
    StepOk input .comment s (lexComment s) := by
  obtain ⟨hbe, hse⟩ := hT.1 rfl
  have hpend : ∀ t, s.out.getLast? = some t → t.tokenType ≠ .ItemKeyword := by
    intro t ht hk
    cases hT.2.2 t ht hk
  have hI0 : Inv input { s with start := s.pos } := by
    obtain ⟨h1, h2, h3, h4, h5⟩ := hI
    exact ⟨h1, h2, le_trans h3 h4, le_rfl, OutOk_mono h5 h4⟩
  have hB0 : BufSeg { s with start := s.pos } := by
    refine ⟨s.left, [], rfl, ?_, ?_, ?_⟩
    · show s.pos = (byteLen s.left : Int)
      exact hI.2.1
    · show s.buf = srcBytes []
      rw [hbe]; rfl
    · show s.pos = (byteLen s.left : Int) + (byteLen ([] : List Char) : Int)
      rw [hI.2.1]
      simp [byteLen]
  obtain ⟨s1, n1, hres, ⟨ts, hext⟩, hcase⟩ :=
    lexCommentF_spec input (s.rem + 1) { s with start := s.pos }
      (show ({ s with start := s.pos } : LexState).rem < s.rem + 1 from Nat.lt_succ_self _)
      hI0 hB0 hpend
  refine ⟨s1, n1, hres, ⟨ts, hext⟩, ?_⟩
  rcases hcase with ⟨hn, hfin⟩ | ⟨tag1, hn, htag, hInv1, hT1, hrem1⟩
  · exact Or.inl ⟨hn, hfin⟩
  · refine Or.inr ⟨tag1, hn, hInv1, hT1, ?_⟩
    have hrem2 : s1.rem < s.rem := hrem1
    rcases htag with rfl | rfl
    · show 2 * s1.rem + 1 < 2 * s.rem + 0
      omega
    · show 2 * s1.rem + 0 < 2 * s.rem + 0
      omega

theorem take_rep_le {k : Nat} {accept : Char} {l : List Char}
    (h : l.take k = List.replicate k accept) : k ≤ l.length := by
  have h1 := congrArg List.length h
  simp [List.length_take] at h1
  omega

/-- Extending a buffered segment by a consumed prefix of the remaining
input. -/
theorem seg_extend {input : List Char} {s : LexState} {l0 mid seg rest : List Char}
    (hleft : s.left = mid.reverse ++ l0)
    (hpos : s.pos = (byteLen l0 : Int) + (byteLen mid : Int))
    (hsrc : s.src = input)
    (hright : s.right = seg ++ rest) :
    seg.reverse ++ s.left = (mid ++ seg).reverse ++ l0 ∧
    s.pos + (byteLen seg : Int) = (byteLen l0 : Int) + (byteLen (mid ++ seg) : Int) ∧
    (seg.reverse ++ s.left).reverse ++ rest = input := by
  refine ⟨by simp [hleft, List.append_assoc], ?_, ?_⟩
  · rw [hpos, byteLen_append]
    push_cast
    ring
  · rw [← hsrc]
    simp [LexState.src, hright, List.append_assoc]

/-- Specification of the quoted-value closing loop (`case 1, 3` of
`lexQuotedValue`).  Because the source tests `err != io.EOF` after reading
a body rune, the loop either finds the closing run at once (Value), or
halts with Error and EndOfStream — on genuine end of input or right after
reading the first body rune. -/
theorem lexQuotedBodyF_spec (input : List Char) (q : Char) (numQuotes : Nat)
    (hnq : numQuotes = 1 ∨ numQuotes = 3) :
    ∀ (fuel : Nat) (s : LexState), 0 < fuel → Inv input s → BufSeg s →
    LoopOk input s (lexQuotedBodyF q numQuotes fuel s) := by
  intro fuel
  induction fuel with
  | zero => intro s h; exact absurd h (by omega)
  | succ fuel _ =>
      intro s _ hI hB
      obtain ⟨l0, mid, hleft, hstart, hbuf, hpos, hin⟩ := BufSeg_input hI.1 hB
      obtain ⟨k, e, pr, s1, hres, hs1, hk, htake, he1, he0⟩ := takeRunes_spec q numQuotes s
      have hkle : k ≤ s.right.length := take_rep_le htake
      have hrt : s.right = s.right.take k ++ s.right.drop k :=
        (List.take_append_drop k s.right).symm
      obtain ⟨hl1, hp1, hsrc1⟩ := seg_extend hleft hpos hI.1 hrt
      subst hs1
      cases e with
      | true =>
          obtain ⟨hIe, houte, hlaste⟩ :=
            emit_step (s := ⟨(s.right.take k).reverse ++ s.left, s.right.drop k,
                s.buf ++ srcBytes (s.right.take k) ++ (if true = true then [0] else []),
                pr, s.pos + (byteLen (s.right.take k) : Int), s.start, s.out⟩)
              l0 (mid ++ s.right.take k) [0] (Or.inr rfl) hl1 hstart
              (by show s.buf ++ srcBytes (s.right.take k) ++ _ = _
                  simp [hbuf, srcBytes_append])
              hp1 hsrc1 hI.2.2.2.2 .ItemError (by decide)
              (fun _ _ _ => Or.inr rfl)
          obtain ⟨hfin, houtf⟩ :=
            emit_eof_final hIe rfl rfl (last_ne_keyword (by decide) hlaste)
          refine ⟨_, none, ?_, ?_, Or.inl ⟨rfl, hfin⟩⟩
          · simp only [lexQuotedBodyF, hres]
            rw [if_pos trivial]
          · exact ⟨_, by rw [houtf, houte, List.append_assoc]⟩
      | false =>
          by_cases hkn : k = numQuotes
          · obtain ⟨hIe, houte, hlaste⟩ :=
              emit_step (s := ⟨(s.right.take k).reverse ++ s.left, s.right.drop k,
                  s.buf ++ srcBytes (s.right.take k) ++ (if false = true then [0] else []),
                  pr, s.pos + (byteLen (s.right.take k) : Int), s.start, s.out⟩)
                l0 (mid ++ s.right.take k) [] (Or.inl rfl) hl1 hstart
                (by show s.buf ++ srcBytes (s.right.take k) ++ _ = _
                    simp [hbuf, srcBytes_append])
                hp1 hsrc1 hI.2.2.2.2 .ItemValue (by decide)
                (fun _ _ _ => Or.inl rfl)
            refine ⟨_, some .generic, ?_, ⟨_, houte⟩,
              Or.inr ⟨.generic, rfl, Or.inl rfl, hIe,
                TagOk_generic (last_ne_keyword (by decide) hlaste), ?_⟩⟩
            · simp only [lexQuotedBodyF, hres]
              rw [if_neg (by decide), if_pos hkn]
            · show (s.right.drop k).length < s.rem
              have h1 : 1 ≤ k := by omega
              simp only [List.length_drop, LexState.rem]
              omega
          · obtain ⟨c, rest2, hdrop, hcne⟩ := (he0 rfl).resolve_left hkn
            have hnext := next_cons
              (s := ⟨(s.right.take k).reverse ++ s.left, s.right.drop k,
                s.buf ++ srcBytes (s.right.take k) ++ (if false = true then [0] else []),
                pr, s.pos + (byteLen (s.right.take k) : Int), s.start, s.out⟩) hdrop
            have hrt2 : s.right = (s.right.take k ++ [c]) ++ rest2 := by
              rw [List.append_assoc, List.singleton_append, ← hdrop]
              exact hrt
            obtain ⟨hl2, hp2, hsrc2⟩ := seg_extend hleft hpos hI.1 hrt2
            obtain ⟨hIe, houte, hlaste⟩ :=
              emit_step (s := ⟨c :: ((s.right.take k).reverse ++ s.left), rest2,
                  (s.buf ++ srcBytes (s.right.take k) ++ (if false = true then [0] else []))
                    ++ String.utf8EncodeChar c,
                  c.utf8Size,
                  s.pos + (byteLen (s.right.take k) : Int) + (c.utf8Size : Int),
                  s.start, s.out⟩)
                l0 (mid ++ (s.right.take k ++ [c])) [] (Or.inl rfl)
                (by show c :: ((s.right.take k).reverse ++ s.left) = _
                    simp [hleft, List.append_assoc])
                hstart
                (by show _ ++ String.utf8EncodeChar c = _
                    simp [hbuf, srcBytes_append, srcBytes, List.append_assoc])
                (by show s.pos + (byteLen (s.right.take k) : Int) + (c.utf8Size : Int) = _
                    rw [hpos, byteLen_append, byteLen_append]
                    push_cast
                    simp only [byteLen]
                    push_cast
                    ring)
                (by show (c :: ((s.right.take k).reverse ++ s.left)).reverse ++ rest2 = input
                    rw [← hsrc2]
                    simp [List.append_assoc])
                hI.2.2.2.2 .ItemError (by decide)
                (fun _ _ _ => Or.inr rfl)
            obtain ⟨hfin, houtf⟩ :=
              emit_eof_final hIe rfl rfl (last_ne_keyword (by decide) hlaste)
            refine ⟨_, none, ?_, ?_, Or.inl ⟨rfl, hfin⟩⟩
            · simp only [lexQuotedBodyF, hres]
              rw [if_neg (by decide), if_neg hkn]
              simp only [hnext]
            · exact ⟨_, by rw [houtf, houte, List.append_assoc]⟩

/-- Specification of `lexQuotedValue` when the cursor sits on the quote rune
(as arranged by `lexValue`): it never panics, consumes at least one rune,
and emits Error or Value according to the opening-run length. -/
theorem lexQuotedValue_spec (input : List Char) (q : Char) (s : LexState)
    (hI : Inv input s) (rtail : List Char) (hq : s.right = q :: rtail) :
    LoopOk input s (lexQuotedValue q s) := by
  have hI0 : Inv input (resetTokenBuffer s) := by
    obtain ⟨h1, h2, h3, h4, h5⟩ := hI
    exact ⟨h1, h2, le_trans h3 h4, le_rfl, OutOk_mono h5 h4⟩
  obtain ⟨k, e, pr, s1, hres, hs1, hk3, htake, he1, he0⟩ :=
    takeRunes_spec q 3 (resetTokenBuffer s)
  have hs2 : s1 = ⟨(s.right.take k).reverse ++ s.left, s.right.drop k,
      srcBytes (s.right.take k) ++ (if e = true then [0] else []),
      pr, s.pos + (byteLen (s.right.take k) : Int), s.pos, s.out⟩ := by
    rw [hs1]
    rfl
  subst hs2
  have htkS : s.right.take k = List.replicate k q := htake
  have hkle : k ≤ s.right.length := take_rep_le htkS
  have hk1 : 1 ≤ k := by
    rcases Nat.eq_zero_or_pos k with hk0 | h
    · subst hk0
      cases e with
      | true =>
          have h3 : s.right.drop 0 = [] := (he1 rfl).1
          rw [List.drop_zero, hq] at h3
          cases h3
      | false =>
          rcases he0 rfl with h3 | ⟨c, r2, hd, hcne⟩
          · omega
          · have hd2 : s.right.drop 0 = c :: r2 := hd
            rw [List.drop_zero, hq] at hd2
            cases hd2
            exact absurd rfl hcne
    · exact h
  have houtR : OutOk input s.out s.pos := OutOk_mono hI.2.2.2.2 hI.2.2.2.1
  cases e with
  | true =>
      obtain ⟨hIe, houte, hlaste⟩ :=
        emit_step (s := ⟨(s.right.take k).reverse ++ s.left, s.right.drop k,
            srcBytes (s.right.take k) ++ (if true = true then [0] else []),
            pr, s.pos + (byteLen (s.right.take k) : Int), s.pos, s.out⟩)
          s.left (s.right.take k) [0] (Or.inr rfl) rfl hI.2.1 rfl
          (by show s.pos + (byteLen (s.right.take k) : Int) = _
              rw [hI.2.1])
          (by show ((s.right.take k).reverse ++ s.left).reverse ++ s.right.drop k = input
              rw [← hI.1]
              simp [LexState.src, List.append_assoc])
          houtR .ItemError (by decide) (fun _ _ _ => Or.inr rfl)
      obtain ⟨hfin, houtf⟩ :=
        emit_eof_final hIe rfl rfl (last_ne_keyword (by decide) hlaste)
      refine ⟨_, none, ?_, ?_, Or.inl ⟨rfl, hfin⟩⟩
      · simp only [lexQuotedValue, hres]
        rw [if_pos (by trivial)]
      · exact ⟨_, by rw [houtf, houte, List.append_assoc]⟩
  | false =>
      by_cases hk13 : k = 1 ∨ k = 3
      · have hIR : Inv input
            ⟨(s.right.take k).reverse ++ s.left, s.right.drop k,
              srcBytes (s.right.take k) ++ (if false = true then [0] else []),
              pr, s.pos + (byteLen (s.right.take k) : Int), s.pos, s.out⟩ := by
          refine ⟨?_, ?_, ?_, ?_, ?_⟩
          · show ((s.right.take k).reverse ++ s.left).reverse ++ s.right.drop k = input
            rw [← hI.1]
            simp [LexState.src, List.append_assoc]
          · show s.pos + (byteLen (s.right.take k) : Int) =
              (byteLen ((s.right.take k).reverse ++ s.left) : Int)
            rw [hI.2.1, byteLen_append, byteLen_reverse]
            push_cast
            ring
          · show (0 : Int) ≤ s.pos
            exact le_trans hI.2.2.1 hI.2.2.2.1
          · show s.pos ≤ s.pos + (byteLen (s.right.take k) : Int)
            have h1 : (0 : Int) ≤ (byteLen (s.right.take k) : Int) := by positivity
            omega
          · exact houtR
        have hBR : BufSeg
            ⟨(s.right.take k).reverse ++ s.left, s.right.drop k,
              srcBytes (s.right.take k) ++ (if false = true then [0] else []),
              pr, s.pos + (byteLen (s.right.take k) : Int), s.pos, s.out⟩ := by
          refine ⟨s.left, s.right.take k, rfl, hI.2.1, ?_, ?_⟩
          · show srcBytes (s.right.take k) ++ _ = srcBytes (s.right.take k)
            simp
          · show s.pos + (byteLen (s.right.take k) : Int) = _
            rw [hI.2.1]
        obtain ⟨sf, nf, hresB, ⟨ts, hext⟩, hcase⟩ :=
          lexQuotedBodyF_spec input q k hk13 _ _ (Nat.succ_pos _) hIR hBR
        refine ⟨sf, nf, ?_, ⟨ts, hext⟩, ?_⟩
        · simp only [lexQuotedValue, hres]
          rw [if_neg (by decide), if_pos hk13]
          exact hresB
        · rcases hcase with h | ⟨tag1, hn, htag, hInv1, hT, hremf⟩
          · exact Or.inl h
          · refine Or.inr ⟨tag1, hn, htag, hInv1, hT, ?_⟩
            have hremf2 : sf.rem < (s.right.drop k).length := hremf
            show sf.rem < s.rem
            simp only [LexState.rem, List.length_drop] at hremf2 ⊢
            omega
      · obtain ⟨hIe, houte, hlaste⟩ :=
          emit_step (s := ⟨(s.right.take k).reverse ++ s.left, s.right.drop k,
              srcBytes (s.right.take k) ++ (if false = true then [0] else []),
              pr, s.pos + (byteLen (s.right.take k) : Int), s.pos, s.out⟩)
            s.left (s.right.take k) [] (Or.inl rfl) rfl hI.2.1
            (by show [] ++ srcBytes (s.right.take k) ++ _ = _
                simp)
            (by show s.pos + (byteLen (s.right.take k) : Int) = _
                rw [hI.2.1])
            (by show ((s.right.take k).reverse ++ s.left).reverse ++ s.right.drop k = input
                rw [← hI.1]
                simp [LexState.src, List.append_assoc])
            houtR .ItemError (by decide) (fun _ _ _ => Or.inr rfl)
        refine ⟨_, some .generic, ?_, ⟨_, houte⟩,
          Or.inr ⟨.generic, rfl, Or.inl rfl, hIe,
            TagOk_generic (last_ne_keyword (by decide) hlaste), ?_⟩⟩
        · simp only [lexQuotedValue, hres]
          rw [if_neg (by decide), if_neg hk13]
        · show (s.right.drop k).length < s.rem
          simp only [LexState.rem, List.length_drop]
          omega

/-- Specification of the `lexValue` loop body: it never panics and either
halts with a completed stream or hands control onward having consumed at
least one rune. -/
theorem lexValueF_spec (input : List Char) :
    ∀ (fuel : Nat) (s : LexState), s.rem < fuel → Inv input s → BufSeg s →
    LoopOk input s (lexValueF fuel s) := by
  intro fuel
  induction fuel with
  | zero => intro s h _ _; exact absurd h (by omega)
  | succ fuel ih =>
      intro s hf hI hB
      obtain ⟨l0, mid, hleft, hstart, hbuf, hpos, hin⟩ := BufSeg_input hI.1 hB
      cases hr : s.right with
      | nil =>
          obtain ⟨hIe, houte, hlaste⟩ :=
            emit_step (s := ⟨s.left, s.right, s.buf ++ [0], 0, s.pos, s.start, s.out⟩)
              l0 mid [0] (Or.inr rfl) hleft hstart (by rw [hbuf]) hpos hI.1
              hI.2.2.2.2 .ItemValue (by decide)
              (fun _ _ _ => Or.inl rfl)
          obtain ⟨hfin, houtf⟩ :=
            emit_eof_final hIe rfl rfl (last_ne_keyword (by decide) hlaste)
          have hext2 :
              (emit (emit ⟨s.left, s.right, s.buf ++ [0], 0, s.pos, s.start, s.out⟩
                  .ItemValue) .ItemEOF).out =
                s.out ++ [⟨.ItemValue, s.start, s.pos - s.start, s.buf ++ [0]⟩,
                  ⟨.ItemEOF, s.pos, s.pos - s.pos, []⟩] := by
            rw [houtf, houte]
            simp [emit_eq, List.append_assoc]
          refine ⟨_, none, ?_, ⟨_, hext2⟩, Or.inl ⟨rfl, hfin⟩⟩
          simp only [lexValueF, next_nil hr]
      | cons c rest =>
          have hnext := next_cons hr
          have hrem1 : rest.length < fuel := by
            have h1 : s.rem = rest.length + 1 := by simp [LexState.rem, hr]
            omega
          have hremS : s.rem = rest.length + 1 := by simp [LexState.rem, hr]
          have hsrc1 :
              (⟨c :: s.left, rest, s.buf ++ String.utf8EncodeChar c, c.utf8Size,
                s.pos + (c.utf8Size : Int), s.start, s.out⟩ : LexState).src = input := by
            rw [← hI.1]
            simp [LexState.src, hr, List.append_assoc]
          have hleft1 : (c :: s.left : List Char) = (mid ++ [c]).reverse ++ l0 := by
            simp [hleft, List.append_assoc]
          have hbuf1 : s.buf ++ String.utf8EncodeChar c = srcBytes (mid ++ [c]) ++ [] := by
            simp [hbuf, srcBytes_append, srcBytes]
          have hpos1 : s.pos + (c.utf8Size : Int) =
              (byteLen l0 : Int) + (byteLen (mid ++ [c]) : Int) := by
            rw [hpos, byteLen_append]
            push_cast
            simp only [byteLen]
            push_cast
            ring
          have hIs1 : Inv input
              ⟨c :: s.left, rest, s.buf ++ String.utf8EncodeChar c, c.utf8Size,
                s.pos + (c.utf8Size : Int), s.start, s.out⟩ := by
            refine ⟨hsrc1, ?_, hI.2.2.1, ?_, hI.2.2.2.2⟩
            · show s.pos + (c.utf8Size : Int) = (byteLen (c :: s.left) : Int)
              rw [hI.2.1, cast_byteLen_cons]
              ring
            · show s.start ≤ s.pos + (c.utf8Size : Int)
              have h1 : (0 : Int) ≤ (c.utf8Size : Int) := by positivity
              have h2 := hI.2.2.2.1
              omega
          have hBs1 : BufSeg
              ⟨c :: s.left, rest, s.buf ++ String.utf8EncodeChar c, c.utf8Size,
                s.pos + (c.utf8Size : Int), s.start, s.out⟩ :=
            ⟨l0, mid ++ [c], hleft1, hstart, by simpa using hbuf1, hpos1⟩
          by_cases hqc : c = '"' ∨ c = '\''
          · by_cases hg : s.pos = s.start
            · have hbk := backup_next hnext
              have hIq : Inv input ({ s with prevRuneSize := 0 } : LexState) := hI
              obtain ⟨sf, nf, hresQ, ⟨ts, hext⟩, hcase⟩ :=
                lexQuotedValue_spec input c { s with prevRuneSize := 0 } hIq rest hr
              refine ⟨sf, nf, ?_, ⟨ts, hext⟩, ?_⟩
              · simp only [lexValueF, hnext]
                rw [if_pos hqc, if_pos (by simp; omega), hbk]
                exact hresQ
              · rcases hcase with h | ⟨tag1, hn, htag, hInv1, hT, hremf⟩
                · exact Or.inl h
                · exact Or.inr ⟨tag1, hn, htag, hInv1, hT, hremf⟩
            · obtain ⟨sf, nf, hres, ⟨ts, hext⟩, hcase⟩ :=
                ih ⟨c :: s.left, rest, s.buf ++ String.utf8EncodeChar c, c.utf8Size,
                    s.pos + (c.utf8Size : Int), s.start, s.out⟩
                  (show LexState.rem _ < fuel from hrem1) hIs1 hBs1
              refine ⟨sf, nf, ?_, ⟨ts, hext⟩, ?_⟩
              · simp only [lexValueF, hnext]
                rw [if_pos hqc, if_neg (by simp; omega), hres]
              · rcases hcase with h | ⟨tag1, hn, htag, hInv1, hT, hremf⟩
                · exact Or.inl h
                · refine Or.inr ⟨tag1, hn, htag, hInv1, hT, ?_⟩
                  have hremf2 : sf.rem < rest.length := hremf
                  show sf.rem < s.rem
                  omega
          · by_cases hnl : c = '\n'
            · have hbk := backup_next hnext
              obtain ⟨hIv, houtv, hlastv⟩ :=
                emit_step (s := { s with prevRuneSize := 0 }) l0 mid [] (Or.inl rfl)
                  hleft hstart (by simpa using hbuf) hpos hI.1 hI.2.2.2.2
                  .ItemValue (by decide)
                  (fun _ _ _ => Or.inl rfl)
              have hVright :
                  (emit { s with prevRuneSize := 0 } .ItemValue).right = c :: rest := hr
              have hnext2 := next_cons hVright
              have hV2 : (next (emit { s with prevRuneSize := 0 } .ItemValue)).2 =
                  ⟨c :: s.left, rest, String.utf8EncodeChar c, c.utf8Size,
                    s.pos + (c.utf8Size : Int), s.pos,
                    s.out ++ [⟨.ItemValue, s.start, s.pos - s.start, s.buf⟩]⟩ := by
                rw [hnext2]
                rfl
              refine ⟨(next (emit { s with prevRuneSize := 0 } .ItemValue)).2,
                some .generic, ?_,
                ⟨[⟨.ItemValue, s.start, s.pos - s.start, s.buf⟩], ?_⟩,
                Or.inr ⟨.generic, rfl, Or.inl rfl, ?_, ?_, ?_⟩⟩
              · simp only [lexValueF, hnext]
                rw [if_neg hqc, if_pos hnl, hbk]
              · rw [hV2]
              · rw [hV2]
                obtain ⟨g1, g2, g3, g4, g5⟩ := hIv
                refine ⟨?_, ?_, ?_, ?_, ?_⟩
                · rw [← hI.1]
                  simp [LexState.src, hr, List.append_assoc]
                · show s.pos + (c.utf8Size : Int) = (byteLen (c :: s.left) : Int)
                  rw [hI.2.1, cast_byteLen_cons]
                  ring
                · show (0 : Int) ≤ s.pos
                  exact le_trans hI.2.2.1 hI.2.2.2.1
                · show s.pos ≤ s.pos + (c.utf8Size : Int)
                  have h1 : (0 : Int) ≤ (c.utf8Size : Int) := by positivity
                  omega
                · exact g5
              · rw [hV2]
                exact TagOk_generic (last_ne_keyword (by decide) hlastv)
              · rw [hV2]
                show rest.length < s.rem
                omega
            · obtain ⟨sf, nf, hres, ⟨ts, hext⟩, hcase⟩ :=
                ih ⟨c :: s.left, rest, s.buf ++ String.utf8EncodeChar c, c.utf8Size,
                    s.pos + (c.utf8Size : Int), s.start, s.out⟩
                  (show LexState.rem _ < fuel from hrem1) hIs1 hBs1
              refine ⟨sf, nf, ?_, ⟨ts, hext⟩, ?_⟩
              · simp only [lexValueF, hnext]
                rw [if_neg hqc, if_neg hnl, hres]
              · rcases hcase with h | ⟨tag1, hn, htag, hInv1, hT, hremf⟩
                · exact Or.inl h
                · refine Or.inr ⟨tag1, hn, htag, hInv1, hT, ?_⟩
                  have hremf2 : sf.rem < rest.length := hremf
                  show sf.rem < s.rem
                  omega

/-- One whole `lexValue` state-function call satisfies the step contract. -/
theorem lexValue_spec (input : List Char) (s : LexState)
    (hI : Inv input s) : StepOk input .value s (lexValue s) := by
  obtain ⟨s0, hres0, h1, h2, h3, h4, h5⟩ :=
    skipWhitespaceF_spec (s.rem + 1) s (Nat.lt_succ_self _)
  have hsw : skipWhitespace s = some s0 := hres0
  have htd : s.right.takeWhile goIsSpace ++ s.right.dropWhile goIsSpace = s.right := by
    simp
  have hpos0 : s0.pos = (byteLen s0.left : Int) := by
    rw [h3, h2, byteLen_append, byteLen_reverse, hI.2.1]
    push_cast
    ring
  have hsrc0 : s0.src = input := by
    show s0.left.reverse ++ s0.right = input
    rw [h2, h1, List.reverse_append, List.reverse_reverse, List.append_assoc, htd]
    exact hI.1
  have hI0 : Inv input (resetTokenBuffer s0) := by
    refine ⟨hsrc0, hpos0, ?_, le_rfl, ?_⟩
    · show (0 : Int) ≤ s0.pos
      rw [hpos0]
      positivity
    · show OutOk input s0.out s0.pos
      rw [h4, h3]
      refine OutOk_mono hI.2.2.2.2 ?_
      have hbl : (0 : Int) ≤ (byteLen (s.right.takeWhile goIsSpace) : Int) := by
        positivity
      have h6 := hI.2.2.2.1
      omega
  have hB0 : BufSeg (resetTokenBuffer s0) := by
    refine ⟨s0.left, [], rfl, hpos0, rfl, ?_⟩
    show s0.pos = (byteLen s0.left : Int) + (byteLen ([] : List Char) : Int)
    rw [hpos0]
    simp [byteLen]
  have hlen0 : s0.rem ≤ s.rem := by
    have hl := congrArg List.length htd
    rw [List.length_append] at hl
    show s0.right.length ≤ s.right.length
    rw [h1]
    omega
  obtain ⟨sf, nf, hresF, ⟨ts, hext⟩, hcase⟩ :=
    lexValueF_spec input (s0.rem + 1) (resetTokenBuffer s0)
      (show (resetTokenBuffer s0).rem < s0.rem + 1 from Nat.lt_succ_self _) hI0 hB0
  have hext2 : sf.out = s.out ++ ts := by
    rw [← h4]
    exact hext
  refine ⟨sf, nf, ?_, ⟨ts, hext2⟩, ?_⟩
  · simp only [lexValue, hsw]
    exact hresF
  · rcases hcase with ⟨hn, hfin⟩ | ⟨tag1, hn, htag, hInv1, hT1, hrem1⟩
    · exact Or.inl ⟨hn, hfin⟩
    · refine Or.inr ⟨tag1, hn, hInv1, hT1, ?_⟩
      have hrem2 : sf.rem < s0.rem := hrem1
      rcases htag with rfl | rfl
      · show 2 * sf.rem + 1 < 2 * s.rem + 0
        omega
      · show 2 * sf.rem + 0 < 2 * s.rem + 0
        omega

/-- Specification of the `lexSection` closing loop: it never panics, and
either finds `sectionDepth` closing brackets (Section), errors at a newline,
or errors out at end of input. -/
theorem lexSectionF_spec (input : List Char) (d : Nat) (hd : 1 ≤ d) :
    ∀ (fuel : Nat) (s : LexState), s.rem < fuel → Inv input s → BufSeg s →
    (∀ t, s.out.getLast? = some t → t.tokenType ≠ .ItemKeyword) →
    LoopOk input s (lexSectionF d fuel s) := by
  intro fuel
  induction fuel with
  | zero => intro s h _ _ _; exact absurd h (by omega)
  | succ fuel ih =>
      intro s hf hI hB hpend
      obtain ⟨l0, mid, hleft, hstart, hbuf, hpos, hin⟩ := BufSeg_input hI.1 hB
      obtain ⟨k, e, pr, s1, hres, hs1, hk, htake, he1, he0⟩ := takeRunes_spec ']' d s
      have hkle : k ≤ s.right.length := take_rep_le htake
      have hrt : s.right = s.right.take k ++ s.right.drop k :=
        (List.take_append_drop k s.right).symm
      obtain ⟨hl1, hp1, hsrc1⟩ := seg_extend hleft hpos hI.1 hrt
      subst hs1
      cases e with
      | true =>
          obtain ⟨hIe, houte, hlaste⟩ :=
            emit_step (s := ⟨(s.right.take k).reverse ++ s.left, s.right.drop k,
                s.buf ++ srcBytes (s.right.take k) ++ (if true = true then [0] else []),
                pr, s.pos + (byteLen (s.right.take k) : Int), s.start, s.out⟩)
              l0 (mid ++ s.right.take k) [0] (Or.inr rfl) hl1 hstart
              (by show s.buf ++ srcBytes (s.right.take k) ++ _ = _
                  simp [hbuf, srcBytes_append])
              hp1 hsrc1 hI.2.2.2.2 .ItemError (by decide)
              (fun _ _ _ => Or.inr rfl)
          obtain ⟨hfin, houtf⟩ :=
            emit_eof_final hIe rfl rfl (last_ne_keyword (by decide) hlaste)
          refine ⟨_, none, ?_, ?_, Or.inl ⟨rfl, hfin⟩⟩
          · simp only [lexSectionF, hres]
            rw [if_pos trivial]
          · exact ⟨_, by rw [houtf, houte, List.append_assoc]⟩
      | false =>
          by_cases hkn : k = d
          · obtain ⟨hIe, houte, hlaste⟩ :=
              emit_step (s := ⟨(s.right.take k).reverse ++ s.left, s.right.drop k,
                  s.buf ++ srcBytes (s.right.take k) ++ (if false = true then [0] else []),
                  pr, s.pos + (byteLen (s.right.take k) : Int), s.start, s.out⟩)
                l0 (mid ++ s.right.take k) [] (Or.inl rfl) hl1 hstart
                (by show s.buf ++ srcBytes (s.right.take k) ++ _ = _
                    simp [hbuf, srcBytes_append])
                hp1 hsrc1 hI.2.2.2.2 .ItemSection (by decide)
                (fun a ha hk2 => (hpend a ha hk2).elim)
            refine ⟨_, some .generic, ?_, ⟨_, houte⟩,
              Or.inr ⟨.generic, rfl, Or.inl rfl, hIe,
                TagOk_generic (last_ne_keyword (by decide) hlaste), ?_⟩⟩
            · simp only [lexSectionF, hres]
              rw [if_neg (by decide), if_pos hkn]
            · show (s.right.drop k).length < s.rem
              have h1 : 1 ≤ k := by omega
              simp only [List.length_drop, LexState.rem]
              omega
          · obtain ⟨c, rest2, hdrop, hcne⟩ := (he0 rfl).resolve_left hkn
            have hnext := next_cons
              (s := ⟨(s.right.take k).reverse ++ s.left, s.right.drop k,
                s.buf ++ srcBytes (s.right.take k) ++ (if false = true then [0] else []),
                pr, s.pos + (byteLen (s.right.take k) : Int), s.start, s.out⟩) hdrop
            have hrt2 : s.right = (s.right.take k ++ [c]) ++ rest2 := by
              rw [List.append_assoc, List.singleton_append, ← hdrop]
              exact hrt
            obtain ⟨hl2, hp2, hsrc2⟩ := seg_extend hleft hpos hI.1 hrt2
            have hlenr := congrArg List.length hrt2
            simp [List.length_append] at hlenr
            have hsr : s.rem = s.right.length := rfl
            by_cases hnl : c = '\n'
            · obtain ⟨hIe, houte, hlaste⟩ :=
                emit_step (s := ⟨c :: ((s.right.take k).reverse ++ s.left), rest2,
                    (s.buf ++ srcBytes (s.right.take k) ++
                        (if false = true then [0] else []))
                      ++ String.utf8EncodeChar c,
                    c.utf8Size,
                    s.pos + (byteLen (s.right.take k) : Int) + (c.utf8Size : Int),
                    s.start, s.out⟩)
                  l0 (mid ++ (s.right.take k ++ [c])) [] (Or.inl rfl)
                  (by show c :: ((s.right.take k).reverse ++ s.left) = _
                      simp [hleft, List.append_assoc])
                  hstart
                  (by show _ ++ String.utf8EncodeChar c = _
                      simp [hbuf, srcBytes_append, srcBytes, List.append_assoc])
                  (by show s.pos + (byteLen (s.right.take k) : Int) + (c.utf8Size : Int) = _
                      rw [hpos, byteLen_append, byteLen_append]
                      push_cast
                      simp only [byteLen]
                      push_cast
                      ring)
                  (by show (c :: ((s.right.take k).reverse ++ s.left)).reverse ++ rest2 = input
                      rw [← hsrc2]
                      simp [List.append_assoc])
                  hI.2.2.2.2 .ItemError (by decide)
                  (fun _ _ _ => Or.inr rfl)
              refine ⟨_, some .generic, ?_, ⟨_, houte⟩,
                Or.inr ⟨.generic, rfl, Or.inl rfl, hIe,
                  TagOk_generic (last_ne_keyword (by decide) hlaste), ?_⟩⟩
              · simp only [lexSectionF, hres]
                rw [if_neg (by decide), if_neg hkn]
                simp only [hnext]
                rw [if_pos hnl]
              · show rest2.length < s.rem
                omega
            · have hIs2 : Inv input
                  ⟨c :: ((s.right.take k).reverse ++ s.left), rest2,
                    (s.buf ++ srcBytes (s.right.take k) ++
                        (if false = true then [0] else []))
                      ++ String.utf8EncodeChar c,
                    c.utf8Size,
                    s.pos + (byteLen (s.right.take k) : Int) + (c.utf8Size : Int),
                    s.start, s.out⟩ := by
                refine ⟨?_, ?_, hI.2.2.1, ?_, hI.2.2.2.2⟩
                · show (c :: ((s.right.take k).reverse ++ s.left)).reverse ++ rest2 = input
                  rw [← hsrc2]
                  simp [List.append_assoc]
                · show s.pos + (byteLen (s.right.take k) : Int) + (c.utf8Size : Int) =
                    (byteLen (c :: ((s.right.take k).reverse ++ s.left)) : Int)
                  rw [hI.2.1, cast_byteLen_cons, byteLen_append, byteLen_reverse]
                  push_cast
                  ring
                · show s.start ≤
                    s.pos + (byteLen (s.right.take k) : Int) + (c.utf8Size : Int)
                  have h1 : (0 : Int) ≤ (c.utf8Size : Int) := by positivity
                  have h2 : (0 : Int) ≤ (byteLen (s.right.take k) : Int) := by positivity
                  have h3 := hI.2.2.2.1
                  omega
              have hBs2 : BufSeg
                  ⟨c :: ((s.right.take k).reverse ++ s.left), rest2,
                    (s.buf ++ srcBytes (s.right.take k) ++
                        (if false = true then [0] else []))
                      ++ String.utf8EncodeChar c,
                    c.utf8Size,
                    s.pos + (byteLen (s.right.take k) : Int) + (c.utf8Size : Int),
                    s.start, s.out⟩ := by
                refine ⟨l0, mid ++ (s.right.take k ++ [c]), ?_, hstart, ?_, ?_⟩
                · show c :: ((s.right.take k).reverse ++ s.left) = _
                  simp [hleft, List.append_assoc]
                · show _ ++ String.utf8EncodeChar c = _
                  simp [hbuf, srcBytes_append, srcBytes, List.append_assoc]
                · show s.pos + (byteLen (s.right.take k) : Int) + (c.utf8Size : Int) = _
                  rw [hpos, byteLen_append, byteLen_append]
                  push_cast
                  simp only [byteLen]
                  push_cast
                  ring
              obtain ⟨sf, nf, hresR, ⟨ts, hext⟩, hcase⟩ :=
                ih ⟨c :: ((s.right.take k).reverse ++ s.left), rest2,
                    (s.buf ++ srcBytes (s.right.take k) ++
                        (if false = true then [0] else []))
                      ++ String.utf8EncodeChar c,
                    c.utf8Size,
                    s.pos + (byteLen (s.right.take k) : Int) + (c.utf8Size : Int),
                    s.start, s.out⟩
                  (show rest2.length < fuel by omega) hIs2 hBs2 hpend
              refine ⟨sf, nf, ?_, ⟨ts, hext⟩, ?_⟩
              · simp only [lexSectionF, hres]
                rw [if_neg (by decide), if_neg hkn]
                simp only [hnext]
                rw [if_neg hnl]
                exact hresR
              · rcases hcase with h | ⟨tag1, hn, htag, hInv1, hT, hremf⟩
                · exact Or.inl h
                · refine Or.inr ⟨tag1, hn, htag, hInv1, hT, ?_⟩
                  have hremf2 : sf.rem < rest2.length := hremf
                  show sf.rem < s.rem
                  omega

/-- One whole `lexSection` state-function call satisfies the step contract. -/
theorem lexSection_spec (input : List Char) (s : LexState)
    (hI : Inv input s) (hT : TagOk .sec s) : StepOk input .sec s (lexSection s) := by
  obtain ⟨rtail, hq⟩ := hT.2.1 rfl
  have hpend : ∀ t, s.out.getLast? = some t → t.tokenType ≠ .ItemKeyword := by
    intro t ht hk
    cases hT.2.2 t ht hk
  obtain ⟨k, e, pr, s1, hres, hs1, htake, he1, he0⟩ :=
    acceptRunF_spec '[' (LexState.rem (resetTokenBuffer s) + 1) (resetTokenBuffer s)
      (Nat.lt_succ_self _)
  have hs2 : s1 = ⟨(s.right.take k).reverse ++ s.left, s.right.drop k,
      srcBytes (s.right.take k) ++ (if e = true then [0] else []),
      pr, s.pos + (byteLen (s.right.take k) : Int), s.pos, s.out⟩ := by
    rw [hs1]
    rfl
  subst hs2
  have htkS : s.right.take k = List.replicate k '[' := htake
  have hkle : k ≤ s.right.length := take_rep_le htkS
  have houtR : OutOk input s.out s.pos := OutOk_mono hI.2.2.2.2 hI.2.2.2.1
  have hsrS : s.rem = rtail.length + 1 := by simp [LexState.rem, hq]
  cases e with
  | true =>
      obtain ⟨hIe, houte, hlaste⟩ :=
        emit_step (s := ⟨(s.right.take k).reverse ++ s.left, s.right.drop k,
            srcBytes (s.right.take k) ++ (if true = true then [0] else []),
            pr, s.pos + (byteLen (s.right.take k) : Int), s.pos, s.out⟩)
          s.left (s.right.take k) [0] (Or.inr rfl) rfl hI.2.1 rfl
          (by show s.pos + (byteLen (s.right.take k) : Int) = _
              rw [hI.2.1])
          (by show ((s.right.take k).reverse ++ s.left).reverse ++ s.right.drop k = input
              rw [← hI.1]
              simp [LexState.src, List.append_assoc])
          houtR .ItemError (by decide) (fun _ _ _ => Or.inr rfl)
      refine ⟨_, some .generic, ?_, ⟨_, houte⟩,
        Or.inr ⟨.generic, rfl, hIe,
          TagOk_generic (last_ne_keyword (by decide) hlaste), ?_⟩⟩
      · simp only [lexSection, acceptRun, hres]
        rw [if_pos (Or.inr trivial)]
      · have hd0 : s.right.drop k = [] := he1 rfl
        show 2 * (s.right.drop k).length + 1 < 2 * s.rem + 0
        rw [hd0]
        simp only [List.length_nil]
        omega
  | false =>
      obtain ⟨c, rest2, hdrop, hcne⟩ := he0 rfl
      have hk1 : 1 ≤ k := by
        rcases Nat.eq_zero_or_pos k with hk0 | h
        · subst hk0
          have hd2 : s.right.drop 0 = c :: rest2 := hdrop
          rw [List.drop_zero, hq] at hd2
          cases hd2
          exact absurd rfl hcne
        · exact h
      have hIR : Inv input
          ⟨(s.right.take k).reverse ++ s.left, s.right.drop k,
            srcBytes (s.right.take k) ++ (if false = true then [0] else []),
            pr, s.pos + (byteLen (s.right.take k) : Int), s.pos, s.out⟩ := by
        refine ⟨?_, ?_, ?_, ?_, ?_⟩
        · show ((s.right.take k).reverse ++ s.left).reverse ++ s.right.drop k = input
          rw [← hI.1]
          simp [LexState.src, List.append_assoc]
        · show s.pos + (byteLen (s.right.take k) : Int) =
            (byteLen ((s.right.take k).reverse ++ s.left) : Int)
          rw [hI.2.1, byteLen_append, byteLen_reverse]
          push_cast
          ring
        · show (0 : Int) ≤ s.pos
          exact le_trans hI.2.2.1 hI.2.2.2.1
        · show s.pos ≤ s.pos + (byteLen (s.right.take k) : Int)
          have h1 : (0 : Int) ≤ (byteLen (s.right.take k) : Int) := by positivity
          omega
        · exact houtR
      have hBR : BufSeg
          ⟨(s.right.take k).reverse ++ s.left, s.right.drop k,
            srcBytes (s.right.take k) ++ (if false = true then [0] else []),
            pr, s.pos + (byteLen (s.right.take k) : Int), s.pos, s.out⟩ := by
        refine ⟨s.left, s.right.take k, rfl, hI.2.1, ?_, ?_⟩
        · show srcBytes (s.right.take k) ++ _ = srcBytes (s.right.take k)
          simp
        · show s.pos + (byteLen (s.right.take k) : Int) = _
          rw [hI.2.1]
      obtain ⟨sf, nf, hresB, ⟨ts, hext⟩, hcase⟩ :=
        lexSectionF_spec input k hk1 _ _ (Nat.lt_succ_self _) hIR hBR hpend
      refine ⟨sf, nf, ?_, ⟨ts, hext⟩, ?_⟩
      · simp only [lexSection, acceptRun, hres]
        rw [if_neg (by simp; omega)]
        exact hresB
      · rcases hcase with ⟨hn, hfin⟩ | ⟨tag1, hn, htag, hInv1, hT1, hrem1⟩
        · exact Or.inl ⟨hn, hfin⟩
        · refine Or.inr ⟨tag1, hn, hInv1, hT1, ?_⟩
          have hrem2 : sf.rem < (s.right.drop k).length := hrem1
          have hdl : (s.right.drop k).length = s.right.length - k := by simp
          have hsr : s.rem = s.right.length := rfl
          rcases htag with rfl | rfl
          · show 2 * sf.rem + 1 < 2 * s.rem + 0
            omega
          · show 2 * sf.rem + 0 < 2 * s.rem + 0
            omega

/-- One whole `lexGeneric` state-function call satisfies the step contract:
it dispatches on the first non-space rune (or emits EndOfStream). -/
theorem lexGeneric_spec (input : List Char) (s : LexState)
    (hI : Inv input s) (hT : TagOk .generic s) :
    StepOk input .generic s (lexGeneric s) := by
  have hpend : ∀ t, s.out.getLast? = some t → t.tokenType ≠ .ItemKeyword := by
    intro t ht hk
    cases hT.2.2 t ht hk
  obtain ⟨s0, hres0, h1, h2, h3, h4, h5⟩ :=
    skipWhitespaceF_spec (s.rem + 1) s (Nat.lt_succ_self _)
  have hsw : skipWhitespace s = some s0 := hres0
  have htd : s.right.takeWhile goIsSpace ++ s.right.dropWhile goIsSpace = s.right := by
    simp
  have hpos0 : s0.pos = (byteLen s0.left : Int) := by
    rw [h3, h2, byteLen_append, byteLen_reverse, hI.2.1]
    push_cast
    ring
  have hsrc0 : s0.src = input := by
    show s0.left.reverse ++ s0.right = input
    rw [h2, h1, List.reverse_append, List.reverse_reverse, List.append_assoc, htd]
    exact hI.1
  have hpend0 : ∀ t, s0.out.getLast? = some t → t.tokenType ≠ .ItemKeyword := by
    rw [h4]
    exact hpend
  have hI0 : Inv input (resetTokenBuffer s0) := by
    refine ⟨hsrc0, hpos0, ?_, le_rfl, ?_⟩
    · show (0 : Int) ≤ s0.pos
      rw [hpos0]
      positivity
    · show OutOk input s0.out s0.pos
      rw [h4, h3]
      refine OutOk_mono hI.2.2.2.2 ?_
      have hbl : (0 : Int) ≤ (byteLen (s.right.takeWhile goIsSpace) : Int) := by
        positivity
      have h6 := hI.2.2.2.1
      omega
  have hlen0 : s0.rem ≤ s.rem := by
    have hl := congrArg List.length htd
    rw [List.length_append] at hl
    show s0.right.length ≤ s.right.length
    rw [h1]
    omega
  cases hcons : s0.right with
  | nil =>
      have hnx := next_nil (s := resetTokenBuffer s0)
        (show (resetTokenBuffer s0).right = [] from hcons)
      have hIE : Inv input (resetTokenBuffer
          ⟨(resetTokenBuffer s0).left, (resetTokenBuffer s0).right,
            (resetTokenBuffer s0).buf ++ [0], 0, (resetTokenBuffer s0).pos,
            (resetTokenBuffer s0).start, (resetTokenBuffer s0).out⟩) := hI0
      obtain ⟨hfin, houtf⟩ := emit_eof_final hIE rfl rfl hpend0
      have hext2 : (emit (resetTokenBuffer
          ⟨(resetTokenBuffer s0).left, (resetTokenBuffer s0).right,
            (resetTokenBuffer s0).buf ++ [0], 0, (resetTokenBuffer s0).pos,
            (resetTokenBuffer s0).start, (resetTokenBuffer s0).out⟩) .ItemEOF).out =
          s.out ++ [⟨.ItemEOF, s0.pos, s0.pos - s0.pos, []⟩] := by
        rw [houtf, ← h4]
        rfl
      refine ⟨_, none, ?_, ⟨_, hext2⟩, Or.inl ⟨rfl, hfin⟩⟩
      simp only [lexGeneric, hsw, hnx]
  | cons c rest =>
      have hnext2 : next (resetTokenBuffer s0) = (some c,
          ⟨c :: s0.left, rest, String.utf8EncodeChar c, c.utf8Size,
            s0.pos + (c.utf8Size : Int), s0.pos, s0.out⟩) := by
        rw [next_cons (show (resetTokenBuffer s0).right = c :: rest from hcons)]
        rfl
      have hs0rem : s0.rem = rest.length + 1 := by simp [LexState.rem, hcons]
      by_cases hbr : c = '['
      · have hbk := backup_next hnext2
        refine ⟨{ resetTokenBuffer s0 with prevRuneSize := 0 }, some .sec, ?_,
          ⟨[], by rw [List.append_nil]; exact h4⟩,
          Or.inr ⟨.sec, rfl, hI0, ?_, ?_⟩⟩
        · simp only [lexGeneric, hsw, hnext2]
          rw [if_pos hbr, hbk]
        · refine ⟨?_, ?_, ?_⟩
          · exact fun h => nomatch h
          · exact fun _ => ⟨rest, hbr ▸ hcons⟩
          · exact fun t ht hk => (hpend0 t ht hk).elim
        · show 2 * s0.rem + 0 < 2 * s.rem + 1
          omega
      · by_cases hcm : c = '#'
        · have hbk := backup_next hnext2
          refine ⟨{ resetTokenBuffer s0 with prevRuneSize := 0 }, some .comment, ?_,
            ⟨[], by rw [List.append_nil]; exact h4⟩,
            Or.inr ⟨.comment, rfl, hI0, ?_, ?_⟩⟩
          · simp only [lexGeneric, hsw, hnext2]
            rw [if_neg hbr, if_pos hcm, hbk]
          · refine ⟨?_, ?_, ?_⟩
            · exact fun _ => ⟨rfl, rfl⟩
            · exact fun h => nomatch h
            · exact fun t ht hk => (hpend0 t ht hk).elim
          · show 2 * s0.rem + 0 < 2 * s.rem + 1
            omega
        · by_cases hnl : c = '\n'
          · refine ⟨⟨c :: s0.left, rest, String.utf8EncodeChar c, c.utf8Size,
                s0.pos + (c.utf8Size : Int), s0.pos, s0.out⟩, some .generic, ?_,
              ⟨[], by rw [List.append_nil]; exact h4⟩,
              Or.inr ⟨.generic, rfl, ?_, ?_, ?_⟩⟩
            · simp only [lexGeneric, hsw, hnext2]
              rw [if_neg hbr, if_neg hcm, if_pos hnl]
            · refine ⟨?_, ?_, ?_, ?_, ?_⟩
              · show (c :: s0.left).reverse ++ rest = input
                rw [← hsrc0]
                simp [LexState.src, hcons, List.append_assoc]
              · show s0.pos + (c.utf8Size : Int) = (byteLen (c :: s0.left) : Int)
                rw [hpos0, cast_byteLen_cons]
                ring
              · show (0 : Int) ≤ s0.pos
                rw [hpos0]
                positivity
              · show s0.pos ≤ s0.pos + (c.utf8Size : Int)
                have hcs : (0 : Int) ≤ (c.utf8Size : Int) := by positivity
                omega
              · exact hI0.2.2.2.2
            · exact TagOk_generic hpend0
            · show 2 * rest.length + 1 < 2 * s.rem + 1
              omega
          · by_cases heq : c = '='
            · obtain ⟨hIe, houte, hlaste⟩ :=
                emit_step (s := ⟨c :: s0.left, rest, String.utf8EncodeChar c,
                    c.utf8Size, s0.pos + (c.utf8Size : Int), s0.pos, s0.out⟩)
                  s0.left [c] [] (Or.inl rfl) rfl hpos0
                  (by simp [srcBytes])
                  (by rw [hpos0]
                      push_cast
                      simp only [byteLen]
                      push_cast
                      ring)
                  (by show (c :: s0.left).reverse ++ rest = input
                      rw [← hsrc0]
                      simp [LexState.src, hcons, List.append_assoc])
                  hI0.2.2.2.2 .ItemError (by decide)
                  (fun _ _ _ => Or.inr rfl)
              have hext2 : (emit ⟨c :: s0.left, rest, String.utf8EncodeChar c,
                  c.utf8Size, s0.pos + (c.utf8Size : Int), s0.pos, s0.out⟩
                    .ItemError).out =
                  s.out ++ [⟨.ItemError, s0.pos, s0.pos + (c.utf8Size : Int) - s0.pos,
                    String.utf8EncodeChar c⟩] := by
                rw [houte, ← h4]
              refine ⟨_, some .generic, ?_, ⟨_, hext2⟩,
                Or.inr ⟨.generic, rfl, hIe,
                  TagOk_generic (last_ne_keyword (by decide) hlaste), ?_⟩⟩
              · simp only [lexGeneric, hsw, hnext2]
                rw [if_neg hbr, if_neg hcm, if_neg hnl, if_pos heq]
              · show 2 * rest.length + 1 < 2 * s.rem + 1
                omega
            · have hbk := backup_next hnext2
              refine ⟨{ resetTokenBuffer s0 with prevRuneSize := 0 }, some .key, ?_,
                ⟨[], by rw [List.append_nil]; exact h4⟩,
                Or.inr ⟨.key, rfl, hI0, ?_, ?_⟩⟩
              · simp only [lexGeneric, hsw, hnext2]
                rw [if_neg hbr, if_neg hcm, if_neg hnl, if_neg heq, hbk]
              · refine ⟨?_, ?_, ?_⟩
                · exact fun h => nomatch h
                · exact fun h => nomatch h
                · exact fun t ht hk => (hpend0 t ht hk).elim
              · show 2 * s0.rem + 0 < 2 * s.rem + 1
                omega

/-- Any dispatched state function satisfies the step contract. -/
theorem runState_spec (input : List Char) (tag : StateF) (s : LexState)
    (hI : Inv input s) (hT : TagOk tag s) :
    StepOk input tag s (runState tag s) := by
  cases tag with
  | generic => exact lexGeneric_spec input s hI hT
  | key => exact lexKey_spec input s hI hT
  | value => exact lexValue_spec input s hI
  | comment => exact lexComment_spec input s hI hT
  | sec => exact lexSection_spec input s hI hT

/-- Master run lemma: with fuel above the measure `2·rem + weight`, the
machine runs to completion without panicking, and the final queue is a
completed stream extending the current one. -/
theorem runAll_spec (input : List Char) :
    ∀ (fuel : Nat) (tag : StateF) (s : LexState),
    2 * s.rem + weight tag < fuel → Inv input s → TagOk tag s →
    ∃ sf, runAll fuel tag s = some sf ∧ (∃ ts, sf.out = s.out ++ ts) ∧
      OutFinal input sf.out := by
  intro fuel
  induction fuel with
  | zero => intro tag s h _ _; exact absurd h (by omega)
  | succ fuel ih =>
      intro tag s hf hI hT
      obtain ⟨s1, n1, hres, ⟨ts, hext⟩, hcase⟩ := runState_spec input tag s hI hT
      rcases hcase with ⟨hn, hfin⟩ | ⟨tag1, hn, hInv1, hT1, hlt⟩
      · subst hn
        refine ⟨s1, ?_, ⟨ts, hext⟩, hfin⟩
        simp only [runAll, hres]
      · subst hn
        obtain ⟨sf, hresF, ⟨ts2, hext2⟩, hfin⟩ := ih tag1 s1 (by omega) hInv1 hT1
        refine ⟨sf, ?_, ⟨ts ++ ts2, by rw [hext2, hext, List.append_assoc]⟩, hfin⟩
        simp only [runAll, hres]
        exact hresF

/-- The machine invariant holds in the initial state. -/
theorem initState_Inv (input : List Char) : Inv input (initState input) := by
  refine ⟨?_, ?_, le_rfl, le_rfl, OutOk_nil input 0⟩
  · show ([] : List Char).reverse ++ input = input
    simp
  · show (0 : Int) = (byteLen ([] : List Char) : Int)
    simp [byteLen]

/-- The lexer always completes on any input without panicking, and the
stream of tokens it emits is a completed stream: in-bounds monotone
positions, token text matching the input slice (up to the EndOfStream NUL
quirk), Keyword followed by Value or Error, and exactly one EndOfStream,
at the end. -/
theorem lexTokens_spec (input : List Char) :
    ∃ ts, lexTokens input = some ts ∧ OutFinal input ts := by
  have hT : TagOk .generic (initState input) :=
    TagOk_generic (fun _ ht => nomatch ht)
  obtain ⟨sf, hres, _, hfin⟩ :=
    runAll_spec input (lexFuel input) .generic (initState input)
      (by show 2 * input.length + 1 < 2 * input.length + 2
          omega)
      (initState_Inv input) hT
  refine ⟨sf.out, ?_, hfin⟩
  simp only [lexTokens, hres]
  rfl

/-! ## `NextItem` and reuse after EndOfStream -/

/-- Popping the front token off the queue preserves the queue invariant. -/
theorem OutOk_pop {input : List Char} {t : Token} {rest : List Token} {bound : Int}
    (h : OutOk input (t :: rest) bound) : OutOk input rest bound := by
  obtain ⟨h1, h2, h3, h4, h5⟩ := h
  refine ⟨?_, ?_, ?_, ?_, ?_⟩
  · exact fun u hu => h1 u (List.mem_cons_of_mem _ hu)
  · exact List.Chain'.tail h2
  · exact List.Chain'.tail h3
  · intro u hu
    apply h4
    cases rest with
    | nil => exact absurd hu (by simp)
    | cons r rs =>
        rw [List.getLast?_cons_cons]
        exact hu
  · exact fun u hu => h5 u (List.mem_cons_of_mem _ hu)

/-- Invariant of the consumer-facing lexer object between `NextItem` calls:
either a state function is stored and the machine invariant holds, or the
machine has halted and at most the last queued token is EndOfStream. -/
def QInv (input : List Char) (lx : Lexer) : Prop :=
  (∃ tag, lx.state = some tag ∧ Inv input lx.st ∧ TagOk tag lx.st) ∨
  (lx.state = none ∧ ∀ t ∈ lx.st.out.dropLast, t.tokenType ≠ .ItemEOF)

/-- `QInv` holds for the freshly constructed lexer. -/
theorem NewLexer_QInv (input : List Char) : QInv input (NewLexer input) :=
  Or.inl ⟨.generic, rfl, initState_Inv input,
    TagOk_generic (fun _ ht => nomatch ht)⟩

/-- Delivering the front queued token preserves `QInv`; moreover if that
token is EndOfStream, the machine has halted and the queue is now empty. -/
theorem deliver_preserves (input : List Char) (lx : Lexer) (hQ : QInv input lx)
    (t : Token) (rest : List Token) (hout : lx.st.out = t :: rest) :
    QInv input ⟨{ lx.st with out := rest }, lx.state⟩ ∧
    (t.tokenType = .ItemEOF → lx.state = none ∧ rest = []) := by
  rcases hQ with ⟨tag, hst, hInv, hT⟩ | ⟨hst, hdl⟩
  · have h5 : OutOk input (t :: rest) lx.st.start := by
      rw [← hout]
      exact hInv.2.2.2.2
    constructor
    · refine Or.inl ⟨tag, hst, ?_, ?_⟩
      · exact ⟨hInv.1, hInv.2.1, hInv.2.2.1, hInv.2.2.2.1, OutOk_pop h5⟩
      · refine ⟨?_, ?_, ?_⟩
        · exact hT.1
        · exact hT.2.1
        · intro u hu hk
          apply hT.2.2 u ?_ hk
          rw [hout]
          cases rest with
          | nil => exact absurd hu (by simp)
          | cons r rs =>
              rw [List.getLast?_cons_cons]
              exact hu
    · intro hEOF
      exact absurd hEOF (h5.2.2.2.2 t (List.mem_cons_self t rest))
  · constructor
    · refine Or.inr ⟨hst, ?_⟩
      intro u hu
      apply hdl
      rw [hout]
      cases rest with
      | nil => exact absurd hu (by simp)
      | cons r rs =>
          simp only [List.dropLast]
          exact List.mem_cons_of_mem _ (by simpa [List.dropLast] using hu)
    · intro hEOF
      refine ⟨hst, ?_⟩
      cases rest with
      | nil => rfl
      | cons r rs =>
          exact absurd hEOF (hdl t (by rw [hout]; simp [List.dropLast]))

/-- One `NextItem` call on a lexer satisfying `QInv` preserves it; and when
it delivers the EndOfStream token, the resulting lexer has a nil state
function and an empty queue. -/
theorem nextItemF_preserves (input : List Char) :
    ∀ (fuel : Nat) (lx : Lexer), QInv input lx →
    ∀ t lx', nextItemF fuel lx = .item t lx' →
    QInv input lx' ∧ (t.tokenType = .ItemEOF → lx'.state = none ∧ lx'.st.out = []) := by
  intro fuel
  induction fuel with
  | zero =>
      intro lx hQ t lx' heq
      cases hout : lx.st.out with
      | nil =>
          rw [show nextItemF 0 lx = .outOfFuel by simp only [nextItemF, hout]] at heq
          exact absurd heq (by simp)
      | cons t0 rest =>
          rw [show nextItemF 0 lx = .item t0 ⟨{ lx.st with out := rest }, lx.state⟩ by
            simp only [nextItemF, hout]] at heq
          obtain ⟨h1, h2⟩ : t0 = t ∧
              (⟨{ lx.st with out := rest }, lx.state⟩ : Lexer) = lx' := by
            cases heq
            exact ⟨rfl, rfl⟩
          subst h1
          subst h2
          obtain ⟨hQ', hE⟩ := deliver_preserves input lx hQ t0 rest hout
          exact ⟨hQ', fun h => ⟨(hE h).1, by simpa using (hE h).2⟩⟩
  | succ fuel ih =>
      intro lx hQ t lx' heq
      cases hout : lx.st.out with
      | cons t0 rest =>
          rw [show nextItemF (fuel + 1) lx =
              .item t0 ⟨{ lx.st with out := rest }, lx.state⟩ by
            simp only [nextItemF, hout]] at heq
          obtain ⟨h1, h2⟩ : t0 = t ∧
              (⟨{ lx.st with out := rest }, lx.state⟩ : Lexer) = lx' := by
            cases heq
            exact ⟨rfl, rfl⟩
          subst h1
          subst h2
          obtain ⟨hQ', hE⟩ := deliver_preserves input lx hQ t0 rest hout
          exact ⟨hQ', fun h => ⟨(hE h).1, by simpa using (hE h).2⟩⟩
      | nil =>
          cases hstate : lx.state with
          | none =>
              rw [show nextItemF (fuel + 1) lx = .fault by
                simp only [nextItemF, hout, hstate]] at heq
              exact absurd heq (by simp)
          | some tag =>
              rcases hQ with ⟨tag', hst', hInv, hT⟩ | ⟨hst', _⟩
              · have htag : tag = tag' := by
                  rw [hstate] at hst'
                  exact Option.some.inj hst'
                subst htag
                obtain ⟨s1, n1, hres, _, hcase⟩ :=
                  runState_spec input tag lx.st hInv hT
                rw [show nextItemF (fuel + 1) lx = nextItemF fuel ⟨s1, n1⟩ by
                  simp only [nextItemF, hout, hstate, hres]] at heq
                have hQ1 : QInv input ⟨s1, n1⟩ := by
                  rcases hcase with ⟨hn, hfin⟩ | ⟨tag1, hn, hInv1, hT1, _⟩
                  · exact Or.inr ⟨by rw [hn], fun u hu => hfin.2.2.2.1 u hu⟩
                  · exact Or.inl ⟨tag1, by rw [hn], hInv1, hT1⟩
                exact ih ⟨s1, n1⟩ hQ1 t lx' heq
              · rw [hstate] at hst'
                exact absurd hst' (by simp)

/-- The lexer objects reachable from `NewLexer` by repeated `NextItem`
calls that deliver a token. -/
inductive Reaches (input : List Char) : Lexer → Prop where
  | refl : Reaches input (NewLexer input)
  | step {lx : Lexer} {fuel : Nat} {t : Token} {lx' : Lexer} :
      Reaches input lx → nextItemF fuel lx = .item t lx' → Reaches input lx'

/-- Every reachable lexer object satisfies `QInv`. -/
theorem Reaches_QInv {input : List Char} {lx : Lexer}
    (h : Reaches input lx) : QInv input lx := by
  induction h with
  | refl => exact NewLexer_QInv input
  | step _ heq ih => exact (nextItemF_preserves input _ _ ih _ _ heq).1

/-! ## Reachability of the empty-key branch in `lexKey` (claim C10) -/

/-- `lexKeyF` instrumented with a flag recording whether the empty-key
Error branch (the guard `l.Position-int64(l.prevRuneSize) == l.start` on
reading `=`) was taken. -/
def lexKeyFB : Nat → LexState → Option ((LexState × Option StateF) × Bool)
  | 0, _ => none
  | fuel + 1, s =>
      match next s with
      | (none, s1) =>
          let s2 := emit s1 .ItemError
          some ((emit s2 .ItemEOF, none), false)
      | (some r, s1) =>
          if r = '\n' then some ((emit s1 .ItemError, some .generic), false)
          else if r = '=' then
            if s1.pos - (s1.prevRuneSize : Int) = s1.start then
              some ((emit s1 .ItemError, some .generic), true)
            else
              match backup s1 with
              | none => none
              | some s2 =>
                  let s3 := emit s2 .ItemKeyword
                  let s4 := (next s3).2
                  some ((s4, some .value), false)
          else lexKeyFB fuel s1

/-- `lexKey` instrumented with the empty-key-branch flag. -/
def lexKeyB (s : LexState) : Option ((LexState × Option StateF) × Bool) :=
  lexKeyFB (s.rem + 1) (resetTokenBuffer s)

/-- Dropping the flag recovers the plain loop: the instrumentation is
faithful. -/
theorem lexKeyFB_fst :
    ∀ (fuel : Nat) (s : LexState),
    (lexKeyFB fuel s).map Prod.fst = lexKeyF fuel s := by
  intro fuel
  induction fuel with
  | zero => intro s; rfl
  | succ fuel ih =>
      intro s
      cases hr : s.right with
      | nil =>
          simp only [lexKeyFB, lexKeyF, next_nil hr]
          rfl
      | cons c rest =>
          have hnext := next_cons hr
          simp only [lexKeyFB, lexKeyF, hnext]
          by_cases hnl : c = '\n'
          · rw [if_pos hnl, if_pos hnl]
            rfl
          · rw [if_neg hnl, if_neg hnl]
            by_cases heq : c = '='
            · rw [if_pos heq, if_pos heq]
              by_cases hg : s.pos = s.start
              · rw [if_pos (by simp; omega), if_pos (by simp; omega)]
                rfl
              · rw [if_neg (by simp; omega), if_neg (by simp; omega)]
                cases hb : backup ⟨c :: s.left, rest,
                    s.buf ++ String.utf8EncodeChar c, c.utf8Size,
                    s.pos + (c.utf8Size : Int), s.start, s.out⟩ with
                | none => rfl
                | some s2 => rfl
            · rw [if_neg heq, if_neg heq]
              exact ih _

/-- The loop invariant behind the unreachability of the empty-key branch:
either some rune has already been consumed since the last buffer reset, or
none has but the next rune is not `=`. -/
def KeyEntry (s : LexState) : Prop :=
  s.start < s.pos ∨
  (s.start = s.pos ∧ ∀ c rest, s.right = c :: rest → c ≠ '=')

/-- Under `KeyEntry` the instrumented loop never takes the empty-key
branch. -/
theorem lexKeyFB_flag :
    ∀ (fuel : Nat) (s : LexState), KeyEntry s →
    ∀ r b, lexKeyFB fuel s = some (r, b) → b = false := by
  intro fuel
  induction fuel with
  | zero => intro s _ r b h; exact absurd h (by simp [lexKeyFB])
  | succ fuel ih =>
      intro s hK r b h
      cases hr : s.right with
      | nil =>
          rw [show lexKeyFB (fuel + 1) s =
              some ((emit (emit ⟨s.left, s.right, s.buf ++ [0], 0, s.pos, s.start,
                s.out⟩ .ItemError) .ItemEOF, none), false) by
            simp only [lexKeyFB, next_nil hr]] at h
          cases h
          rfl
      | cons c rest =>
          have hnext := next_cons hr
          by_cases hnl : c = '\n'
          · rw [show lexKeyFB (fuel + 1) s =
                some ((emit ⟨c :: s.left, rest, s.buf ++ String.utf8EncodeChar c,
                    c.utf8Size, s.pos + (c.utf8Size : Int), s.start, s.out⟩
                  .ItemError, some .generic), false) by
              simp only [lexKeyFB, hnext]
              rw [if_pos hnl]] at h
            cases h
            rfl
          · by_cases heq : c = '='
            · have hg : ¬ s.pos = s.start := by
                rcases hK with hlt | ⟨he, hne⟩
                · omega
                · exact absurd heq (hne c rest hr)
              rw [show lexKeyFB (fuel + 1) s =
                  match backup ⟨c :: s.left, rest,
                      s.buf ++ String.utf8EncodeChar c, c.utf8Size,
                      s.pos + (c.utf8Size : Int), s.start, s.out⟩ with
                  | none => none
                  | some s2 =>
                      some (((next (emit s2 .ItemKeyword)).2, some .value), false) by
                simp only [lexKeyFB, hnext]
                rw [if_neg hnl, if_pos heq, if_neg (by simp; omega)]] at h
              rw [backup_next hnext] at h
              cases h
              rfl
            · have hK1 : KeyEntry ⟨c :: s.left, rest,
                  s.buf ++ String.utf8EncodeChar c, c.utf8Size,
                  s.pos + (c.utf8Size : Int), s.start, s.out⟩ := by
                left
                show s.start < s.pos + (c.utf8Size : Int)
                have hsz : 0 < c.utf8Size := Char.utf8Size_pos c
                have h1 : (1 : Int) ≤ (c.utf8Size : Int) := by exact_mod_cast hsz
                rcases hK with hlt | ⟨he, _⟩ <;> omega
              refine ih _ hK1 r b ?_
              rw [show lexKeyFB (fuel + 1) s =
                  lexKeyFB fuel ⟨c :: s.left, rest,
                    s.buf ++ String.utf8EncodeChar c, c.utf8Size,
                    s.pos + (c.utf8Size : Int), s.start, s.out⟩ by
                simp only [lexKeyFB, hnext]
                rw [if_neg hnl, if_neg heq]] at h
              exact h

/-! ## The claims -/

/-- C1 (amended): for every input the lexer completes; token positions are
non-decreasing across the stream, and every token's text is the source
byte slice `[position, position+len)` — except that a token emitted after
the lexer has hit end of input carries one extra trailing NUL byte that is
not part of the source (`next` writes the zero rune on `io.EOF`). -/
theorem c1_positions_and_text (input : List Char) :
    ∃ ts, lexTokens input = some ts ∧ positionsMonotone ts ∧
      ∀ t ∈ ts, tokenTextOkNul input t := by
  obtain ⟨ts, hres, hfin⟩ := lexTokens_spec input
  exact ⟨ts, hres, hfin.2.1, hfin.1⟩

/-- C1 (counterexample to the literal claim): on input `"k=v"` the Value
token's text is `[118, 0]` — the byte of `v` plus a NUL byte that is not
in the source — so it is not exactly the source substring. -/
theorem c1_counterexample :
    ¬ (∀ (input : List Char) (ts : List Token), lexTokens input = some ts →
        ∀ t ∈ ts, tokenTextOk input t) := by
  intro h
  have h2 := h ['k', '=', 'v']
    [⟨.ItemKeyword, 0, 1, [107]⟩, ⟨.ItemValue, 2, 1, [118, 0]⟩,
      ⟨.ItemEOF, 3, 0, []⟩] rfl ⟨.ItemValue, 2, 1, [118, 0]⟩ (by simp)
  have h3 : ([118, 0] : List UInt8) = sliceBytes (srcBytes ['k', '=', 'v']) 2 1 := h2
  exact absurd h3 (by decide)

/-- C2: for every input the emitted token stream (delivered in this order
by `NextItem`, the channel being FIFO) ends with exactly one EndOfStream
token and contains no other. -/
theorem c2_single_eof (input : List Char) :
    ∃ ts t, lexTokens input = some (ts ++ [t]) ∧ t.tokenType = .ItemEOF ∧
      ∀ u ∈ ts, u.tokenType ≠ .ItemEOF := by
  obtain ⟨ts, hres, hfin⟩ := lexTokens_spec input
  obtain ⟨t, hlast, hEOF⟩ := hfin.2.2.2.2
  have hsplit : ts.dropLast ++ [t] = ts := List.dropLast_append_getLast? t hlast
  refine ⟨ts.dropLast, t, ?_, hEOF, ?_⟩
  · rw [hsplit]
    exact hres
  · intro u hu
    exact hfin.2.2.2.1 u hu

/-- C3: in every emitted stream a Keyword token is directly followed by a
Value or an Error token (first conjunct), and a Keyword is never the last
token — the stream ends in EndOfStream — so the following pull always
exists (second conjunct). -/
theorem c3_key_followed (input : List Char) (ts : List Token)
    (h : lexTokens input = some ts) :
    (∀ pre t u post, ts = pre ++ t :: u :: post → t.tokenType = .ItemKeyword →
      u.tokenType = .ItemValue ∨ u.tokenType = .ItemError) ∧
    (∀ pre t, ts = pre ++ [t] → t.tokenType ≠ .ItemKeyword) := by
  obtain ⟨ts', hres, hfin⟩ := lexTokens_spec input
  rw [h] at hres
  obtain rfl : ts = ts' := Option.some.inj hres
  constructor
  · intro pre t u post hdec hk
    have hch : List.Chain' KeyStep ts := hfin.2.2.1
    rw [hdec] at hch
    exact (List.chain'_append_cons_cons.mp hch).2.1 hk
  · intro pre t hdec hk
    obtain ⟨t', hlast, hEOF⟩ := hfin.2.2.2.2
    rw [hdec, List.getLast?_concat] at hlast
    obtain rfl : t = t' := Option.some.inj hlast
    rw [hk] at hEOF
    exact absurd hEOF (by decide)

/-- Witness for C3 at input `"key=value\n"`: the token after the Keyword is
the Value token. -/
theorem c3_witness :
    (⟨.ItemValue, 4, 5, [118, 97, 108, 117, 101]⟩ : Token).tokenType = .ItemValue ∨
    (⟨.ItemValue, 4, 5, [118, 97, 108, 117, 101]⟩ : Token).tokenType = .ItemError :=
  (c3_key_followed ['k', 'e', 'y', '=', 'v', 'a', 'l', 'u', 'e', '\n']
      [⟨.ItemKeyword, 0, 3, [107, 101, 121]⟩,
       ⟨.ItemValue, 4, 5, [118, 97, 108, 117, 101]⟩,
       ⟨.ItemEOF, 10, 0, []⟩] rfl).1
    [] ⟨.ItemKeyword, 0, 3, [107, 101, 121]⟩
    ⟨.ItemValue, 4, 5, [118, 97, 108, 117, 101]⟩ [⟨.ItemEOF, 10, 0, []⟩]
    rfl rfl

/-- C4 (the code diverges from the spec's scenario E): on input
`"key = '''multi\nline'''\n"` the code does NOT produce a Value spanning
both lines; because `lexQuotedValue` tests `err != io.EOF` after reading a
body rune (an inverted check — compare the `err == io.EOF` handling
elsewhere in the file), the successful read of `m` makes it emit Error and
EndOfStream.  The actual output is Keyword, then Error over `'''m`, then
EndOfStream. -/
theorem c4_triple_quote_actual :
    lexTokens ['k', 'e', 'y', ' ', '=', ' ', '\'', '\'', '\'', 'm', 'u', 'l',
        't', 'i', '\n', 'l', 'i', 'n', 'e', '\'', '\'', '\'', '\n'] = some
      [⟨.ItemKeyword, 0, 4, [107, 101, 121, 32]⟩,
       ⟨.ItemError, 6, 4, [39, 39, 39, 109]⟩,
       ⟨.ItemEOF, 10, 0, []⟩] := rfl

/-- C5 (amended): on input `"=oops\n"` the lexer emits TWO Error tokens —
one for the leading `=` from `lexGeneric`, and a second one from `lexKey`
for the rest of the line (`oops\n`) — before EndOfStream. -/
theorem c5_actual :
    lexTokens ['=', 'o', 'o', 'p', 's', '\n'] = some
      [⟨.ItemError, 0, 1, [61]⟩,
       ⟨.ItemError, 1, 5, [111, 111, 112, 115, 10]⟩,
       ⟨.ItemEOF, 6, 0, []⟩] := rfl

/-- C5 (counterexample to the literal claim): the stream for `"=oops\n"` is
not a single Error followed by EndOfStream — it has three tokens. -/
theorem c5_counterexample :
    ¬ ∃ e f, lexTokens ['=', 'o', 'o', 'p', 's', '\n'] = some [e, f] ∧
      e.tokenType = .ItemError ∧ e.position = 0 ∧ f.tokenType = .ItemEOF := by
  rintro ⟨e, f, heq, -, -, -⟩
  rw [show lexTokens ['=', 'o', 'o', 'p', 's', '\n'] = some
      [⟨.ItemError, 0, 1, [61]⟩,
       ⟨.ItemError, 1, 5, [111, 111, 112, 115, 10]⟩,
       ⟨.ItemEOF, 6, 0, []⟩] from rfl] at heq
  have h2 := congrArg List.length (Option.some.inj heq)
  simp at h2

/-- C6 (amended): on input `"[section]\nkey = value\n"` the Section and
Keyword tokens are as claimed (`"[section]"`, `"key "` with the trailing
space), but the Value token's text is `"value"` WITHOUT the leading space:
`lexValue` skips leading whitespace before resetting the token buffer. -/
theorem c6_actual :
    lexTokens ['[', 's', 'e', 'c', 't', 'i', 'o', 'n', ']', '\n', 'k', 'e',
        'y', ' ', '=', ' ', 'v', 'a', 'l', 'u', 'e', '\n'] = some
      [⟨.ItemSection, 0, 9, [91, 115, 101, 99, 116, 105, 111, 110, 93]⟩,
       ⟨.ItemKeyword, 10, 4, [107, 101, 121, 32]⟩,
       ⟨.ItemValue, 16, 5, [118, 97, 108, 117, 101]⟩,
       ⟨.ItemEOF, 22, 0, []⟩] := rfl

/-- C6 (counterexample to the literal claim): the token texts are not
Section/Keyword/Value(" value")/EndOfStream — the Value text has no
leading space. -/
theorem c6_counterexample :
    ¬ ∃ ts, lexTokens ['[', 's', 'e', 'c', 't', 'i', 'o', 'n', ']', '\n', 'k',
        'e', 'y', ' ', '=', ' ', 'v', 'a', 'l', 'u', 'e', '\n'] = some ts ∧
      ts.map Token.value =
        [[91, 115, 101, 99, 116, 105, 111, 110, 93],
         [107, 101, 121, 32],
         [32, 118, 97, 108, 117, 101],
         []] := by
  rintro ⟨ts, heq, hval⟩
  rw [show lexTokens ['[', 's', 'e', 'c', 't', 'i', 'o', 'n', ']', '\n', 'k',
        'e', 'y', ' ', '=', ' ', 'v', 'a', 'l', 'u', 'e', '\n'] = some
      [⟨.ItemSection, 0, 9, [91, 115, 101, 99, 116, 105, 111, 110, 93]⟩,
       ⟨.ItemKeyword, 10, 4, [107, 101, 121, 32]⟩,
       ⟨.ItemValue, 16, 5, [118, 97, 108, 117, 101]⟩,
       ⟨.ItemEOF, 22, 0, []⟩] from rfl] at heq
  obtain rfl := Option.some.inj heq
  exact absurd hval (by decide)

/-- C7: a quoted value opening with a run of exactly two identical quote
runes (the third rune differs) makes `lexQuotedValue` emit a single Error
token covering exactly the two quotes and return to `lexGeneric` — it is
never treated as an empty quoted Value. -/
theorem c7_two_quotes_error (q x : Char) (rest : List Char) (s : LexState)
    (hq : s.right = q :: q :: x :: rest) (hx : x ≠ q) :
    ∃ s1, lexQuotedValue q s = some (s1, some .generic) ∧
      s1.out = s.out ++
        [⟨.ItemError, s.pos, (byteLen [q, q] : Int), srcBytes [q, q]⟩] := by
  obtain ⟨k, e, pr, s1, hres, hs1, hk3, htake, he1, he0⟩ :=
    takeRunes_spec q 3 (resetTokenBuffer s)
  have htkS : s.right.take k = List.replicate k q := htake
  have hk2 : k = 2 := by
    by_contra hne
    have hk013 : k = 0 ∨ k = 1 ∨ k = 3 := by omega
    rcases hk013 with rfl | rfl | rfl
    · cases e with
      | true =>
          have h3 : s.right.drop 0 = [] := (he1 rfl).1
          rw [List.drop_zero, hq] at h3
          exact absurd h3 (by simp)
      | false =>
          rcases he0 rfl with h3 | ⟨c, r2, hd, hcne⟩
          · omega
          · have hd2 : s.right.drop 0 = c :: r2 := hd
            rw [List.drop_zero, hq] at hd2
            cases hd2
            exact absurd rfl hcne
    · cases e with
      | true =>
          have h3 : s.right.drop 1 = [] := (he1 rfl).1
          rw [hq] at h3
          exact absurd h3 (by simp)
      | false =>
          rcases he0 rfl with h3 | ⟨c, r2, hd, hcne⟩
          · omega
          · have hd2 : s.right.drop 1 = c :: r2 := hd
            rw [hq] at hd2
            have hd3 : (q :: x :: rest : List Char) = c :: r2 := by
              simpa using hd2
            cases hd3
            exact absurd rfl hcne
    · rw [hq] at htkS
      have hxq : x = q := by
        simpa [List.replicate] using htkS
      exact absurd hxq hx
  subst hk2
  have he : e = false := by
    cases e with
    | true =>
        have h3 : s.right.drop 2 = [] := (he1 rfl).1
        rw [hq] at h3
        exact absurd h3 (by simp)
    | false => rfl
  subst he
  have hs2 : s1 = ⟨(s.right.take 2).reverse ++ s.left, s.right.drop 2,
      srcBytes (s.right.take 2) ++ (if false = true then [0] else []),
      pr, s.pos + (byteLen (s.right.take 2) : Int), s.pos, s.out⟩ := by
    rw [hs1]
    rfl
  subst hs2
  have htk2 : s.right.take 2 = [q, q] := by
    rw [hq]
    rfl
  refine ⟨emit ⟨(s.right.take 2).reverse ++ s.left, s.right.drop 2,
      srcBytes (s.right.take 2) ++ (if false = true then [0] else []),
      pr, s.pos + (byteLen (s.right.take 2) : Int), s.pos, s.out⟩ .ItemError,
    ?_, ?_⟩
  · simp only [lexQuotedValue, hres]
    rw [if_neg (by decide), if_neg (by decide)]
  · rw [emit_eq, htk2]
    simp

/-- Witness for C7 at the state whose unread input is `''x`. -/
theorem c7_witness :
    ∃ s1, lexQuotedValue '\'' (initState ['\'', '\'', 'x']) =
        some (s1, some .generic) ∧
      s1.out = (initState ['\'', '\'', 'x']).out ++
        [⟨.ItemError, (initState ['\'', '\'', 'x']).pos,
          (byteLen ['\'', '\''] : Int), srcBytes ['\'', '\'']⟩] :=
  c7_two_quotes_error '\'' 'x' [] (initState ['\'', '\'', 'x']) rfl (by decide)

/-- C8: after a successful read, a first pushback succeeds and restores
exactly the pre-read state (a one-rune rewind: position, buffer and cursor
all return to their values before `next`, with `prevRuneSize` cleared);
a second pushback without an intervening read is the Go panic
("backup called before a call to next"), modelled as `none`. -/
theorem c8_backup_twice (s s1 : LexState) (c : Char) (h : next s = (some c, s1)) :
    backup s1 = some { s with prevRuneSize := 0 } ∧
    backup { s with prevRuneSize := 0 } = none := by
  refine ⟨backup_next h, ?_⟩
  simp [backup]

/-- Witness for C8 at input `"a"` after reading the one rune. -/
theorem c8_witness :
    backup ⟨['a'], [], [97], 1, 1, 0, []⟩ =
      some { initState ['a'] with prevRuneSize := 0 } ∧
    backup { initState ['a'] with prevRuneSize := 0 } = none :=
  c8_backup_twice (initState ['a']) ⟨['a'], [], [97], 1, 1, 0, []⟩ 'a' rfl

/-- C9: once a lexer reachable from `NewLexer` has delivered the
EndOfStream token, every further `NextItem` call panics — the Go code
selects the nil state function and calls it — so reuse is rejected
loudly; it never delivers a token of any other kind. -/
theorem c9_after_eof (input : List Char) (lx : Lexer) (hR : Reaches input lx)
    (fuel : Nat) (t : Token) (lx' : Lexer)
    (heq : nextItemF fuel lx = .item t lx') (hEOF : t.tokenType = .ItemEOF) :
    ∀ fuel', 1 ≤ fuel' → nextItemF fuel' lx' = .fault := by
  obtain ⟨hst, hout⟩ :=
    (nextItemF_preserves input fuel lx (Reaches_QInv hR) t lx' heq).2 hEOF
  intro fuel' hf
  cases fuel' with
  | zero => omega
  | succ n => simp only [nextItemF, hout, hst]

/-- Witness for C9: on the empty input the second `NextItem` call (after
the EndOfStream delivery) panics. -/
theorem c9_witness :
    nextItemF 1 ⟨⟨[], [], [], 0, 0, 0, []⟩, none⟩ = .fault :=
  c9_after_eof [] (NewLexer []) Reaches.refl 2 ⟨.ItemEOF, 0, 0, []⟩
    ⟨⟨[], [], [], 0, 0, 0, []⟩, none⟩ rfl rfl 1 (by decide)

/-- C10: the empty-key Error branch inside `lexKey` is unreachable:
(1) `lexGeneric` hands control to the key state only with the cursor on a
rune that is none of `=`, `\n`, `[`, `#`; (2) entered on a rune other than
`=`, the instrumented key loop `lexKeyB` never sets the empty-key-branch
flag; (3) the instrumentation is faithful: dropping the flag recovers
`lexKeyF`. -/
theorem c10_empty_key_unreachable :
    (∀ (s s1 : LexState), lexGeneric s = some (s1, some .key) →
      ∃ c rest, s1.right = c :: rest ∧
        c ≠ '=' ∧ c ≠ '\n' ∧ c ≠ '[' ∧ c ≠ '#') ∧
    (∀ (s : LexState) (c : Char) (rest : List Char), s.right = c :: rest →
      c ≠ '=' → ∀ r b, lexKeyB s = some (r, b) → b = false) ∧
    (∀ (fuel : Nat) (s : LexState),
      (lexKeyFB fuel s).map Prod.fst = lexKeyF fuel s) := by
  refine ⟨?_, ?_, lexKeyFB_fst⟩
  · intro s s1 hres
    cases hsw : skipWhitespace s with
    | none =>
        rw [show lexGeneric s = none by simp only [lexGeneric, hsw]] at hres
        exact absurd hres (by simp)
    | some s0 =>
        cases hr0 : s0.right with
        | nil =>
            rw [show lexGeneric s = some (emit (resetTokenBuffer
                ⟨(resetTokenBuffer s0).left, (resetTokenBuffer s0).right,
                 (resetTokenBuffer s0).buf ++ [0], 0, (resetTokenBuffer s0).pos,
                 (resetTokenBuffer s0).start, (resetTokenBuffer s0).out⟩)
                 .ItemEOF, none) by
              simp only [lexGeneric, hsw, next_nil (s := resetTokenBuffer s0)
                (show (resetTokenBuffer s0).right = [] from hr0)]] at hres
            simp at hres
        | cons c rest =>
            have hnext2 : next (resetTokenBuffer s0) = (some c,
                ⟨c :: s0.left, rest, String.utf8EncodeChar c, c.utf8Size,
                  s0.pos + (c.utf8Size : Int), s0.pos, s0.out⟩) := by
              rw [next_cons (show (resetTokenBuffer s0).right = c :: rest from hr0)]
              rfl
            by_cases hbr : c = '['
            · have hbk := backup_next hnext2
              rw [show lexGeneric s =
                  some ({ resetTokenBuffer s0 with prevRuneSize := 0 }, some .sec) by
                simp only [lexGeneric, hsw, hnext2]
                rw [if_pos hbr, hbk]] at hres
              simp at hres
            · by_cases hcm : c = '#'
              · have hbk := backup_next hnext2
                rw [show lexGeneric s =
                    some ({ resetTokenBuffer s0 with prevRuneSize := 0 },
                      some .comment) by
                  simp only [lexGeneric, hsw, hnext2]
                  rw [if_neg hbr, if_pos hcm, hbk]] at hres
                simp at hres
              · by_cases hnl : c = '\n'
                · rw [show lexGeneric s = some (⟨c :: s0.left, rest,
                      String.utf8EncodeChar c, c.utf8Size,
                      s0.pos + (c.utf8Size : Int), s0.pos, s0.out⟩,
                      some .generic) by
                    simp only [lexGeneric, hsw, hnext2]
                    rw [if_neg hbr, if_neg hcm, if_pos hnl]] at hres
                  simp at hres
                · by_cases heqc : c = '='
                  · rw [show lexGeneric s = some (emit ⟨c :: s0.left, rest,
                        String.utf8EncodeChar c, c.utf8Size,
                        s0.pos + (c.utf8Size : Int), s0.pos, s0.out⟩ .ItemError,
                        some .generic) by
                      simp only [lexGeneric, hsw, hnext2]
                      rw [if_neg hbr, if_neg hcm, if_neg hnl, if_pos heqc]] at hres
                    simp at hres
                  · have hbk := backup_next hnext2
                    rw [show lexGeneric s =
                        some ({ resetTokenBuffer s0 with prevRuneSize := 0 },
                          some .key) by
                      simp only [lexGeneric, hsw, hnext2]
                      rw [if_neg hbr, if_neg hcm, if_neg hnl, if_neg heqc,
                        hbk]] at hres
                    have h1 : ({ resetTokenBuffer s0 with prevRuneSize := 0 } :
                        LexState) = s1 :=
                      congrArg Prod.fst (Option.some.inj hres)
                    subst h1
                    exact ⟨c, rest, hr0, heqc, hnl, hbr, hcm⟩
  · intro s c rest hr hc r b hres
    refine lexKeyFB_flag _ _ ?_ r b hres
    right
    refine ⟨rfl, ?_⟩
    intro c' rest' hr'
    have hr2 : c :: rest = c' :: rest' := by
      rw [← hr]
      exact hr'
    cases hr2
    exact hc

/-- Witness for C10: the instrumented key loop on the state whose unread
input is `a=` reports that the empty-key branch was not taken. -/
theorem c10_witness :
    (lexKeyB ⟨[], ['a', '='], [], 0, 0, 0, []⟩).map Prod.snd ≠ some true := by
  cases h : lexKeyB ⟨[], ['a', '='], [], 0, 0, 0, []⟩ with
  | none => simp
  | some rb =>
      have hb : rb.2 = false :=
        c10_empty_key_unreachable.2.1 ⟨[], ['a', '='], [], 0, 0, 0, []⟩ 'a' ['=']
          rfl (by decide) rb.1 rb.2 (by rw [h])
      simp [hb]

end Modconfigobj
